import Mathlib

/-!
Verification of the dependency-resolution core of node-package-updater.

The development shallowly embeds the Go sources:
the custom semver package (internal/semver), the dependency layer
(internal/dependency: version selection, cache round-trip, registry request
planning, npmrc credential parsing) and the manifest rewriter
(internal/packagejson).  Go strings are modelled as lists of characters;
inputs of interest are ASCII, where Go's byte-wise operations and the
character-wise operations used here agree.  Fallible Go functions returning
an error are modelled with Option / Except.
-/

namespace Npu

/-- ASCII digit test, Go `'0' <= c && c <= '9'` on bytes (internal/semver). -/
def isDigitC (c : Char) : Bool := decide ('0' ≤ c ∧ c ≤ '9')

/-- Go `isIdentChar` (internal/semver): ASCII alphanumerics and hyphen. -/
def isIdentChar (c : Char) : Bool :=
  decide (('A' ≤ c ∧ c ≤ 'Z') ∨ ('a' ≤ c ∧ c ≤ 'z') ∨ ('0' ≤ c ∧ c ≤ '9') ∨ c = '-')

/-- Go `isNum` (internal/semver): every character is a digit (true on ""). -/
def isNum (v : List Char) : Bool := v.all isDigitC

/-- Go `isBadNum` (internal/semver): an all-digit string of length above one
that starts with '0'. -/
def isBadNum (v : List Char) : Bool :=
  v.all isDigitC && decide (1 < v.length) && v.head? == some '0'

/-- Byte-lexicographic `<` of Go strings; on the ASCII strings handled here the
byte order and the character order coincide. -/
def goStrLt : List Char → List Char → Bool
  | [], [] => false
  | [], _ :: _ => true
  | _ :: _, [] => false
  | a :: as, b :: bs => if a < b then true else if b < a then false else goStrLt as bs

/-- Go `compareInt` (internal/semver): decimal numerals compare by length, then
lexicographically. -/
def compareIntL (x y : List Char) : Int :=
  if x = y then 0
  else if x.length < y.length then -1
  else if y.length < x.length then 1
  else if goStrLt x y then -1 else 1

/-- Go `nextIdent` (internal/semver): the next dot-separated identifier and the
remainder starting at the dot. -/
def nextIdent (x : List Char) : List Char × List Char :=
  (x.takeWhile (fun c => !(c == '.')), x.dropWhile (fun c => !(c == '.')))

/-- The identifier comparison inside Go `comparePrerelease` (the branch taken
when the two identifiers differ): numeric identifiers sort below alphanumeric
ones, numeric against numeric by length then lexicographically, otherwise
lexicographically. -/
def cmpIdent (dx dy : List Char) : Int :=
  if isNum dx ≠ isNum dy then (if isNum dx then -1 else 1)
  else if isNum dx then
    if dx.length < dy.length then -1
    else if dy.length < dx.length then 1
    else if goStrLt dx dy then -1 else 1
  else if goStrLt dx dy then -1 else 1

/-- The loop of Go `comparePrerelease` on the identifier sequences: each
iteration of the source loop drops the leading '-' or '.' of both sides and
splits off the next dot-separated identifier (`nextIdent`), so the loop walks
exactly the two identifier lists; the side whose string empties first (its
identifier list runs out first) sorts lower. -/
def cmpIdents : List (List Char) → List (List Char) → Int
  | [], _ => -1
  | _ :: _, [] => 1
  | dx :: xs, dy :: ys => if dx ≠ dy then cmpIdent dx dy else cmpIdents xs ys

/-- The loop of Go `comparePrerelease` on the raw nonempty strings: after the
leading '-' the identifier sequence is the dot-split of the remainder. -/
def cmpAux (x y : List Char) : Int :=
  cmpIdents (x.tail.splitOn '.') (y.tail.splitOn '.')

/-- Go `comparePrerelease` (internal/semver): the empty prerelease (a release)
sorts above every prerelease; otherwise the identifier loop decides. -/
def comparePre (x y : List Char) : Int :=
  if x = y then 0
  else if x = [] then 1
  else if y = [] then -1
  else cmpAux x y

/-- Go `parseInt` (internal/semver): the leading run of decimal digits, failing
on an empty run or a leading zero in a multi-digit run. -/
def parseIntL (v : List Char) : Option (List Char × List Char) :=
  match v with
  | [] => none
  | c :: _ =>
    if !isDigitC c then none
    else
      let t := v.takeWhile isDigitC
      let rest := v.dropWhile isDigitC
      if c = '0' ∧ t.length ≠ 1 then none else some (t, rest)

/-- Go `parsePrerelease` (internal/semver): a '-' followed by dot-separated
identifiers (scanned up to a '+'), each nonempty, made of identifier
characters, and not a numeral with a leading zero. -/
def parsePreL (v : List Char) : Option (List Char × List Char) :=
  match v with
  | '-' :: rest =>
    let body := rest.takeWhile (fun c => !(c == '+'))
    let rem := rest.dropWhile (fun c => !(c == '+'))
    if body.all (fun c => isIdentChar c || c == '.') &&
        (body.splitOn '.').all (fun seg => !seg.isEmpty && !isBadNum seg) then
      some ('-' :: body, rem)
    else none
  | _ => none

/-- Go `parseBuild` (internal/semver): a '+' followed by dot-separated nonempty
identifier segments running to the end of the string. -/
def parseBuildL (v : List Char) : Option (List Char × List Char) :=
  match v with
  | '+' :: rest =>
    if rest.all (fun c => isIdentChar c || c == '.') &&
        (rest.splitOn '.').all (fun seg => !seg.isEmpty) then
      some ('+' :: rest, [])
    else none
  | _ => none

/-- Go `getPrefix` (internal/semver); the source name collides with a reserved
word here, so the operator is called `rangeOp` throughout.  The operators
">=", ">", "^", "~" are tried in that order. -/
def getRangeOp (v : List Char) : List Char :=
  if v.take 2 = ['>', '='] then ['>', '=']
  else if v.take 1 = ['>'] then ['>']
  else if v.take 1 = ['^'] then ['^']
  else if v.take 1 = ['~'] then ['~']
  else []

/-- The Version struct of internal/semver; the source field `prefix` is called
`rangeOp` here. -/
structure Semver where
  rangeOp : List Char := []
  major : List Char := []
  minor : List Char := []
  patch : List Char := []
  short : List Char := []
  prerelease : List Char := []
  build : List Char := []
  version : List Char := []
  isValid : Bool := false
  deriving Repr, DecidableEq, Inhabited

/-- Go `parse` (internal/semver).  The source, adapted from x/mod/semver, first
strips a leading 'v' and then a range operator, and then still slices `v[1:]`
before reading the major number, dropping one more character.  The embedding
reproduces this behaviour faithfully; the Go slice expression panics on the
five inputs "v", "^", "~", ">", ">=" whose remainder is empty, which this
total embedding maps to a parse failure instead. -/
def parse (v0 : List Char) : Semver × Bool :=
  if v0 = [] then ({}, false)
  else
    let v1 := if v0.head? = some 'v' then v0.tail else v0
    let op := getRangeOp v1
    let v2 := v1.drop op.length
    let p0 : Semver := { version := v1, rangeOp := op }
    match parseIntL (v2.drop 1) with
    | none => (p0, false)
    | some (maj, r1) =>
      let p1 := { p0 with major := maj }
      if r1 = [] then
        ({ p1 with minor := ['0'], patch := ['0'], short := ['.', '0', '.', '0'] }, true)
      else if r1.head? ≠ some '.' then (p1, false)
      else
        match parseIntL r1.tail with
        | none => (p1, false)
        | some (mnr, r2) =>
          let p2 := { p1 with minor := mnr }
          if r2 = [] then ({ p2 with patch := ['0'], short := ['.', '0'] }, true)
          else if r2.head? ≠ some '.' then (p2, false)
          else
            match parseIntL r2.tail with
            | none => (p2, false)
            | some (pat, r3) =>
              let p3 := { p2 with patch := pat }
              if r3.head? = some '-' then
                match parsePreL r3 with
                | none => (p3, false)
                | some (pre, r4) =>
                  let p4 := { p3 with prerelease := pre }
                  if r4.head? = some '+' then
                    match parseBuildL r4 with
                    | none => (p4, false)
                    | some (bld, r5) =>
                      let p5 := { p4 with build := bld }
                      if r5 = [] then (p5, true) else (p5, false)
                  else if r4 = [] then (p4, true) else (p4, false)
              else if r3.head? = some '+' then
                match parseBuildL r3 with
                | none => (p3, false)
                | some (bld, r5) =>
                  let p5 := { p3 with build := bld }
                  if r5 = [] then (p5, true) else (p5, false)
              else if r3 = [] then (p3, true) else (p3, false)

/-- Go `NewSemver` (internal/semver). -/
def NewSemver (s : String) : Semver :=
  let pv := parse s.toList
  { pv.1 with isValid := pv.2 }

/-- Method `Prerelease()` of internal/semver: the empty string on an invalid
version, the stored prerelease otherwise. -/
def Semver.Prerelease (v : Semver) : List Char :=
  if v.isValid then v.prerelease else []

/-- Go `Compare` (internal/semver): invalid versions sort below valid ones and
equal to each other; valid versions compare by major, minor, patch and then
prerelease. -/
def Semver.Compare (v w : Semver) : Int :=
  if !v.isValid && !w.isValid then 0
  else if !v.isValid then -1
  else if !w.isValid then 1
  else
    let c1 := compareIntL v.major w.major
    if c1 ≠ 0 then c1
    else
      let c2 := compareIntL v.minor w.minor
      if c2 ≠ 0 then c2
      else
        let c3 := compareIntL v.patch w.patch
        if c3 ≠ 0 then c3 else comparePre v.prerelease w.prerelease

/-- Method `String()` of internal/semver: the stored version text (also
returned for invalid versions). -/
def Semver.toStr (v : Semver) : List Char := v.version

/-- Decimal value of an ASCII digit list. -/
def digitsVal (l : List Char) : Nat :=
  l.foldl (fun acc c => 10 * acc + (c.toNat - '0'.toNat)) 0

/-- Modelled from the spec: the accessor `Major()` of internal/semver is absent
from src/; the spec's data model carries "the semver triple (major, minor,
patch)" numerically, so the accessor reads the decimal value of the stored
component. -/
def Semver.Major (v : Semver) : Nat := digitsVal v.major

/-- Modelled from the spec: the accessor `Minor()` of internal/semver, absent
from src/, reads the decimal value of the stored minor component. -/
def Semver.Minor (v : Semver) : Nat := digitsVal v.minor

/-- Modelled from the spec: the accessor `Patch()` of internal/semver, absent
from src/, reads the decimal value of the stored patch component. -/
def Semver.Patch (v : Semver) : Nat := digitsVal v.patch

/-- Modelled from the spec: `Check` of internal/semver is absent from src/.
Spec 4.4 rule 2 fixes the constraint implied by the current version's range
operator: none means exact, ^ means same non-zero left-most component, ~
means same major.minor, >= means any not less, > strictly greater. -/
def Semver.Check (cur v : Semver) : Bool :=
  match cur.rangeOp with
  | ['^'] =>
    if cur.Major ≠ 0 then cur.Major == v.Major && decide (0 ≤ v.Compare cur)
    else if cur.Minor ≠ 0 then
      v.Major == 0 && cur.Minor == v.Minor && decide (0 ≤ v.Compare cur)
    else v.Major == 0 && v.Minor == 0 && cur.Patch == v.Patch
  | ['~'] => cur.Major == v.Major && cur.Minor == v.Minor && decide (0 ≤ v.Compare cur)
  | ['>', '='] => decide (0 ≤ v.Compare cur)
  | ['>'] => decide (0 < v.Compare cur)
  | _ => v.Compare cur == 0

/-- The cli.Flags fields read by the dependency layer (internal/cli); the
remaining flag fields do not influence the functions embedded here. -/
structure Flags where
  maintainSemver : Bool := false
  pre : Bool := false
  minor : Bool := false
  patch : Bool := false
  keepRangeOperator : Bool := true
  deriving Repr, DecidableEq

/-- The dependency.Version struct (internal/dependency): an embedded semver
value plus the raw registry string, the unpacked size and the deprecation
bit. -/
structure DepVersion where
  version : Semver
  versionStr : String
  weight : Nat := 0
  deprecated : Bool := false
  deriving Repr, DecidableEq

/-- The accumulator update of Go `GetUpdatedVersion`: keep the candidate when
no maximum is tracked yet or when it compares above the tracked one. -/
def keepMax (acc : Option Semver) (v : Semver) : Option Semver :=
  match acc with
  | none => some v
  | some l => if 0 < v.Compare l then some v else some l

/-- The candidate loop of Go `GetUpdatedVersion`
(internal/dependency/version.go, the internal/semver revision): skip
candidates not above the current version, candidates failing the semver
constraint under MaintainSemver, and prereleases without the pre flag; under
the minor (resp. patch) flag track the maximum among candidates with equal
major and larger minor (resp. equal major.minor and larger patch); otherwise
track the maximum, restricted to releases unless the pre flag is set. -/
def updLoop (flags : Flags) (cur : Semver) : List DepVersion → Option Semver → Option Semver
  | [], acc => acc
  | v :: rest, acc =>
    if v.version.Compare cur ≤ 0 then updLoop flags cur rest acc
    else if flags.maintainSemver && !(cur.Check v.version) then updLoop flags cur rest acc
    else if !v.version.Prerelease.isEmpty && !flags.pre then updLoop flags cur rest acc
    else if flags.minor then
      updLoop flags cur rest
        (if cur.Major == v.version.Major && decide (cur.Minor < v.version.Minor) then
          keepMax acc v.version
        else acc)
    else if flags.patch then
      updLoop flags cur rest
        (if cur.Major == v.version.Major && cur.Minor == v.version.Minor &&
            decide (cur.Patch < v.version.Patch) then
          keepMax acc v.version
        else acc)
    else if flags.pre then updLoop flags cur rest (keepMax acc v.version)
    else if v.version.Prerelease.isEmpty then updLoop flags cur rest (keepMax acc v.version)
    else updLoop flags cur rest acc

/-- Go `GetUpdatedVersion` (internal/dependency/version.go, internal/semver
revision): run the candidate loop and return nothing when no candidate was
kept or when the kept one ties with the current version. -/
def GetUpdatedVersion (flags : Flags) (cur : Semver) (versions : List DepVersion) :
    Option Semver :=
  match updLoop flags cur versions none with
  | none => none
  | some l => if cur.Compare l = 0 then none else some l

/-- The Dependency struct fields populated by `NewDependency`
(internal/dependency, part_008 revision). -/
structure Dependency where
  packageName : String
  currentVersion : Semver
  env : String
  workspace : String
  deriving Repr, DecidableEq

/-- Go `NewDependency` (internal/dependency, part_008 lines 319-332): parse the
raw current version and reject the dependency when the parse is invalid. -/
def NewDependency (packageName currentVersion env workspace : String) :
    Except String Dependency :=
  let version := NewSemver currentVersion
  if !version.isValid then
    Except.error ("invalid version: " ++ currentVersion)
  else
    Except.ok
      { packageName := packageName, currentVersion := version, env := env,
        workspace := workspace }

/-- The versionJson record Go gob-encodes per entry in `Versions.Save`
(internal/dependency, part_008). -/
structure VersionJson where
  version : String
  weight : Nat
  deprecated : Bool
  deriving Repr, DecidableEq

/-- Go `Versions.Save` (part_008 lines 140-161): a map from each entry's semver
String() key to its versionJson record, here as an association list.  The Go
map's iteration order is arbitrary, so consumers quantify over every
permutation of this list. -/
def saveVersions (entries : List DepVersion) : List (List Char × VersionJson) :=
  entries.map (fun e => (e.version.toStr, ⟨e.versionStr, e.weight, e.deprecated⟩))

/-- The entry Go `Versions.Restore` (part_008 lines 163-197) rebuilds from one
decoded versionJson record. -/
def restoreEntry (kv : List Char × VersionJson) : DepVersion :=
  { version := NewSemver kv.2.version, versionStr := kv.2.version,
    weight := kv.2.weight, deprecated := kv.2.deprecated }

/-- Insertion of one entry into a list sorted descending by `Compare`,
realising the comparator `versions[i].Compare(versions[j].Version) > 0` of
Go `Versions.SetVersions`. -/
def insertDesc (v : DepVersion) : List DepVersion → List DepVersion
  | [] => [v]
  | w :: rest =>
    if 0 < v.version.Compare w.version then v :: w :: rest
    else w :: insertDesc v rest

/-- Go `Versions.SetVersions` (part_008 lines 77-90): sort the entries
descending by semver precedence and materialise them in that order into the
ordered map keyed by the semver String().  Go uses an unspecified unstable
sort; insertion sort is one refinement of it, and the collections handled here
have pairwise distinct keys. -/
def SetVersions (vs : List DepVersion) : List DepVersion :=
  vs.foldr insertDesc []

/-- Go `Versions.Restore` after a successful cache read and gob decode:
rebuild each entry and materialise through `SetVersions`.  The decoded Go map
again has arbitrary iteration order, so the argument is any permutation of
the saved association list. -/
def restoreVersions (l : List (List Char × VersionJson)) : List DepVersion :=
  SetVersions (l.map restoreEntry)

/-- Oracle for the external effects of one `FetchNewVersion` run (part_008
lines 345-378): the outcomes of the cache restore, the cached-ETag read, the
registry HEAD and the registry GET.  A `none` stands for the corresponding Go
error result. -/
structure FetchEnv where
  restored : Option (List DepVersion)
  cachedEtag : Option String
  headEtag : Option String
  getResult : Option (String × List DepVersion)
  deriving Repr

/-- The observable outcome of the cache / network phase of
`FetchNewVersion`. -/
structure FetchOutcome where
  getIssued : Bool
  wroteEtag : Option String
  wroteVersions : Option (List (List Char × VersionJson))
  failed : Bool
  deriving Repr

/-- Go `FetchNewVersion` (internal/dependency, part_008 lines 345-378), cache
and network phase with the cache present (`cache != nil`): `reqToNpm` is
cleared exactly when the restore succeeds, the adjacent ETag entry is readable
and the HEAD succeeds with an ETag equal to the cached one; when the GET runs
and succeeds, the fresh ETag and the serialised Versions are written back to
the cache. -/
def fetchPhase (env : FetchEnv) : FetchOutcome :=
  let reqToNpm :=
    match env.restored, env.cachedEtag, env.headEtag with
    | some _, some etag, some remote => etag != remote
    | _, _, _ => true
  if reqToNpm then
    match env.getResult with
    | none =>
      { getIssued := true, wroteEtag := none, wroteVersions := none, failed := true }
    | some (etag, vs) =>
      { getIssued := true, wroteEtag := some etag,
        wroteVersions := some (saveVersions vs), failed := false }
  else { getIssued := false, wroteEtag := none, wroteVersions := none, failed := false }

/-- Go `strings.TrimSpace` on the ASCII strings handled here: drop whitespace
from both ends. -/
def trimL (l : List Char) : List Char :=
  ((l.dropWhile Char.isWhitespace).reverse.dropWhile Char.isWhitespace).reverse

/-- The NpmrcConfig struct (internal/dependency); Go strings appear as
character lists. -/
structure NpmrcConfig where
  registry : List Char := []
  authToken : List Char := []
  scope : List Char := []
  deriving Repr, DecidableEq

/-- The request one call of Go `makeRegistryRequest` issues: target URL, HTTP
method and the optional Authorization header value. -/
structure RequestPlan where
  url : List Char
  method : List Char
  authorization : Option (List Char)
  deriving Repr, DecidableEq

/-- Go `makeRegistryRequest` (part_008 lines 397-423): a package is private
when its name starts with the configured scope (`strings.HasPrefix`); a
private package goes to the scoped registry when one is configured, and
carries a bearer token when one is configured. -/
def makeRegistryRequest (method registry packageName : List Char) (cfg : NpmrcConfig) :
    RequestPlan :=
  let isPrivate := cfg.scope.isPrefixOf packageName
  let registryURL := if isPrivate && !(cfg.registry == []) then cfg.registry else registry
  { url := registryURL ++ ['/'] ++ packageName,
    method := method,
    authorization :=
      if isPrivate && !(cfg.authToken == []) then some ("Bearer ".toList ++ cfg.authToken)
      else none }

/-- One line of the loop in Go `parseNpmrc` (internal/dependency): trim, skip
blank lines and '#' comments, split on '=' (`strings.Split`), require exactly
two parts, and record the value for a key with suffix ":registry" (registry
plus scope) or ":_authToken" (token).  Any other line records nothing. -/
def processNpmrcLine (cfg : NpmrcConfig) (rawLine : List Char) : NpmrcConfig :=
  let line := trimL rawLine
  if line = [] ∨ line.head? = some '#' then cfg
  else
    match line.splitOn '=' with
    | [k, v] =>
      let key := trimL k
      let value := trimL v
      if (":registry".toList).isSuffixOf key then
        { cfg with registry := value,
                   scope := key.take (key.length - ":registry".length) }
      else if (":_authToken".toList).isSuffixOf key then { cfg with authToken := value }
      else cfg
    | _ => cfg

/-- The line loop of Go `parseNpmrc` over the whole credentials file content
split on newlines. -/
def parseNpmrcContent (content : List Char) : NpmrcConfig :=
  (content.splitOn '\n').foldl processNpmrcLine {}

/-- Go `parseNpmrc` after a successful file read: the line loop has no error
path, so parsing the content always succeeds. -/
def parseNpmrc (content : List Char) : Except String NpmrcConfig :=
  Except.ok (parseNpmrcContent content)

/-- A JSON value as far as the manifest rewriter observes it: strings, objects
with ordered keys, and anything else left opaque. -/
inductive Jval where
  | str : String → Jval
  | obj : List (String × Jval) → Jval
  | other : Nat → Jval

/-- One accepted change as Go `updatePackageJSON` consumes it: package name,
rendered next version and the selection mark. -/
structure Change where
  packageName : String
  nextVersion : String
  haveToUpdate : Bool

/-- Overwrite of an existing key of an iancoleman ordered map, as performed by
`depsMap.Set` inside Go `updatePackageJSON` (packagejson.go lines 550-598):
the value of a present key is replaced in place, and a key that is absent adds
nothing visible to the serialised document (the nested map arrives as a struct
copy, so an appended key slice entry is dropped while the shared value-map
entry is never serialised). -/
def setExisting (m : List (String × Jval)) (k : String) (v : Jval) :
    List (String × Jval) :=
  m.map (fun kv => if kv.1 = k then (k, v) else kv)

/-- The inner loop of Go `updatePackageJSON` for one dependency bucket: set
the key of every change marked for update. -/
def applyChanges (bucket : List (String × Jval)) (changes : List Change) :
    List (String × Jval) :=
  changes.foldl
    (fun b ch =>
      if ch.haveToUpdate then setExisting b ch.packageName (.str ch.nextVersion) else b)
    bucket

/-- One section pass of Go `updatePackageJSON`: when the document holds the
section key with an object value, the marked changes are applied inside it;
every other entry is untouched. -/
def sectionUpdate (sec : String) (changes : List Change)
    (d : List (String × Jval)) : List (String × Jval) :=
  d.map (fun kv =>
    if kv.1 = sec then
      match kv.2 with
      | .obj fields => (kv.1, Jval.obj (applyChanges fields changes))
      | v => (kv.1, v)
    else kv)

/-- Go `updatePackageJSON` (packagejson.go lines 550-598) on the re-read
order-preserving document: for each of the three dependency buckets present
with an object value, apply the marked changes inside the bucket; every other
key of the document is left alone.  The Go map over the three sections
iterates in arbitrary order; the section keys are distinct, so the fixed
order used here is observably the same. -/
def updatePackageJSON (doc : List (String × Jval))
    (prodChanges devChanges peerChanges : List Change) : List (String × Jval) :=
  [("dependencies", prodChanges), ("devDependencies", devChanges),
    ("peerDependencies", peerChanges)].foldl
    (fun d sec => sectionUpdate sec.1 sec.2 d) doc

/-- The three dependency bucket names `updatePackageJSON` touches. -/
def bucketNames : List String :=
  ["dependencies", "devDependencies", "peerDependencies"]

/-- The package names of the changes marked for update. -/
def changedNames (changes : List Change) : List String :=
  (changes.filter (fun ch => ch.haveToUpdate)).map (fun ch => ch.packageName)

/-- A concrete manifest document for rewrite runs. -/
def wDoc : List (String × Jval) :=
  [("name", Jval.str "app"),
   ("dependencies", Jval.obj [("lodash", Jval.str "^1.0.0"),
                              ("react", Jval.str "^17.0.0")]),
   ("devDependencies", Jval.obj [("jest", Jval.str "^27.0.0")])]

/-- A concrete accepted change for rewrite runs. -/
def wChange : Change :=
  { packageName := "lodash", nextVersion := "^2.0.0", haveToUpdate := true }

/-- A valid semver value built from its parsed decomposition: the triple as
digit strings, the prerelease suffix (with its leading '-', possibly empty)
and the stored version text. -/
def mkSemver (maj mnr pat pre text : String) : Semver :=
  { major := maj.toList, minor := mnr.toList, patch := pat.toList,
    prerelease := pre.toList, version := text.toList, isValid := true }

/-- The version 1.0.0-alpha of the spec's comparator chain. -/
def chain0 : Semver := mkSemver "1" "0" "0" "-alpha" "1.0.0-alpha"

/-- The version 1.0.0-alpha.1 of the spec's comparator chain. -/
def chain1 : Semver := mkSemver "1" "0" "0" "-alpha.1" "1.0.0-alpha.1"

/-- The version 1.0.0-alpha.beta of the spec's comparator chain. -/
def chain2 : Semver := mkSemver "1" "0" "0" "-alpha.beta" "1.0.0-alpha.beta"

/-- The version 1.0.0-beta of the spec's comparator chain. -/
def chain3 : Semver := mkSemver "1" "0" "0" "-beta" "1.0.0-beta"

/-- The version 1.0.0-beta.2 of the spec's comparator chain. -/
def chain4 : Semver := mkSemver "1" "0" "0" "-beta.2" "1.0.0-beta.2"

/-- The version 1.0.0-beta.11 of the spec's comparator chain. -/
def chain5 : Semver := mkSemver "1" "0" "0" "-beta.11" "1.0.0-beta.11"

/-- The version 1.0.0-rc.1 of the spec's comparator chain. -/
def chain6 : Semver := mkSemver "1" "0" "0" "-rc.1" "1.0.0-rc.1"

/-- The release 1.0.0 closing the spec's comparator chain. -/
def chain7 : Semver := mkSemver "1" "0" "0" "" "1.0.0"

/-- Current version 1.0.0 used by concrete selector runs. -/
def wCur : Semver := mkSemver "1" "0" "0" "" "1.0.0"

/-- Candidate version 1.0.1 used by concrete selector runs. -/
def wNext : Semver := mkSemver "1" "0" "1" "" "1.0.1"

/-- Candidate entry 1.0.1 used by concrete selector runs. -/
def wDep : DepVersion := { version := wNext, versionStr := "1.0.1" }

/-- Current version 1.2.3 for the minor-filter scenario. -/
def curMinor : Semver := mkSemver "1" "2" "3" "" "1.2.3"

/-- Candidate 1.2.4, differing from 1.2.3 only in the patch component. -/
def candPatchOnly : DepVersion :=
  { version := mkSemver "1" "2" "4" "" "1.2.4", versionStr := "1.2.4" }

/-- Flag set selecting the minor scope filter with maintain-semver off. -/
def minorFlags : Flags := { minor := true }

/-- A prerelease field as `parse` can produce it: empty, or led by '-'. -/
def PreShaped (s : List Char) : Prop := s = [] ∨ s.head? = some '-'

/-- A semver value whose prerelease field is parse-shaped; every value built
by `parse` / `NewSemver` satisfies this. -/
def Shaped (v : Semver) : Prop := PreShaped v.prerelease

instance (s : List Char) : Decidable (PreShaped s) := by
  unfold PreShaped; infer_instance

instance (v : Semver) : Decidable (Shaped v) := by
  unfold Shaped; infer_instance

/-- The candidates the minor branch of `GetUpdatedVersion` keeps when
maintain-semver is off: strictly above the current version, passing the
prerelease filter, with the current major and a strictly larger minor. -/
def minorSurvivor (flags : Flags) (cur : Semver) (v : DepVersion) : Bool :=
  decide (0 < v.version.Compare cur) &&
  (v.version.Prerelease.isEmpty || flags.pre) &&
  (cur.Major == v.version.Major) && decide (cur.Minor < v.version.Minor)

/-- The candidate loop of `GetUpdatedVersion` restricted to the minor filter
with maintain-semver off: a maximum fold over the surviving candidates. -/
def minorFold (flags : Flags) (cur : Semver) : List DepVersion → Option Semver → Option Semver
  | [], acc => acc
  | v :: rest, acc =>
    minorFold flags cur rest
      (if minorSurvivor flags cur v then keepMax acc v.version else acc)

/-- Candidate 1.3.0, a minor bump over 1.2.3. -/
def cand130 : DepVersion :=
  { version := mkSemver "1" "3" "0" "" "1.3.0", versionStr := "1.3.0" }

/-- A concrete Versions entry for round-trip runs. -/
def wEnt1 : DepVersion :=
  { version := NewSemver "1.0.1", versionStr := "1.0.1", weight := 10,
    deprecated := false }

/-- A second concrete Versions entry for round-trip runs. -/
def wEnt2 : DepVersion :=
  { version := NewSemver "2.0.0", versionStr := "2.0.0", weight := 20,
    deprecated := true }

/-- C2: the claim states that `parse` / `NewSemver` accepts exactly the
well-formed version strings and records their decimal components.  The code
contradicts it (and its own doc comments): having already stripped a leading
'v', `parse` still slices off one more character before reading the major
component, so the well-formed "1.2.3" and "v1.2.3" are rejected, "12.3.4" is
accepted with major component "2" instead of "12", and the parse of
"v2.1.0-pre+meta" — whose prerelease the source's own `Prerelease` doc comment
gives as "-pre" — fails, making `Prerelease` return the empty string. -/
theorem parse_drops_major_char_c2 :
    (NewSemver "1.2.3").isValid = false ∧
    (NewSemver "v1.2.3").isValid = false ∧
    (NewSemver "12.3.4").isValid = true ∧
    (NewSemver "12.3.4").major = ['2'] ∧
    (NewSemver "v2.1.0-pre+meta").Prerelease = [] :=
  ⟨rfl, rfl, rfl, rfl, rfl⟩

/-- C3: the comparator realises standard semver precedence on the spec's
chain 1.0.0-alpha < 1.0.0-alpha.1 < 1.0.0-alpha.beta < 1.0.0-beta <
1.0.0-beta.2 < 1.0.0-beta.11 < 1.0.0-rc.1 < 1.0.0, each adjacent pair
comparing strictly less; the versions are given by their parsed
decompositions. -/
theorem compare_chain_c3 :
    chain0.Compare chain1 = -1 ∧ chain1.Compare chain2 = -1 ∧
    chain2.Compare chain3 = -1 ∧ chain3.Compare chain4 = -1 ∧
    chain4.Compare chain5 = -1 ∧ chain5.Compare chain6 = -1 ∧
    chain6.Compare chain7 = -1 := by
  refine ⟨?_, ?_, ?_, ?_, ?_, ?_, ?_⟩ <;> decide

/-- C5: the claim states that a dependency whose raw current version is
"latest", "*" or "" is accepted and resolved against the highest candidate.
The code rejects all three: `NewDependency` (part_008) parses the raw string
with `NewSemver` and returns an error whenever the parse is invalid, which it
is for these literals, so such a dependency never reaches the selector (whose
`latest` field in `NewVersionManager` is left dead). -/
theorem newDependency_rejects_latest_c5 :
    NewDependency "pkg" "latest" "prod" "" = Except.error "invalid version: latest" ∧
    NewDependency "pkg" "*" "prod" "" = Except.error "invalid version: *" ∧
    NewDependency "pkg" "" "prod" "" = Except.error "invalid version: " :=
  ⟨rfl, rfl, rfl⟩

/-- Helper: `keepMax` preserves any predicate that holds for the tracked
maximum and for the new candidate. -/
theorem keepMax_pred {P : Semver → Prop} {acc : Option Semver} {v : Semver}
    (hacc : ∀ a, acc = some a → P a) (hv : P v) :
    ∀ a, keepMax acc v = some a → P a := by
  intro a h
  cases acc with
  | none => simp [keepMax] at h; exact h ▸ hv
  | some l =>
    simp only [keepMax] at h
    split at h <;> simp_all

/-- Helper: every version stored by the candidate loop of `GetUpdatedVersion`
passed the first filter, so it compares strictly above the current version. -/
theorem updLoop_gt (flags : Flags) (cur : Semver) :
    ∀ (l : List DepVersion) (acc : Option Semver),
      (∀ a, acc = some a → 0 < a.Compare cur) →
      ∀ r, updLoop flags cur l acc = some r → 0 < r.Compare cur := by
  intro l
  induction l with
  | nil =>
    intro acc hacc r h
    simpa [updLoop] using hacc r h
  | cons v rest ih =>
    intro acc hacc r h
    simp only [updLoop] at h
    split at h
    · exact ih acc hacc r h
    · split at h
      · exact ih acc hacc r h
      · split at h
        · exact ih acc hacc r h
        · rename_i hnle _ _
          have hv : 0 < v.version.Compare cur := by omega
          split at h
          · refine ih _ ?_ r h
            split
            · exact keepMax_pred hacc hv
            · exact hacc
          · split at h
            · refine ih _ ?_ r h
              split
              · exact keepMax_pred hacc hv
              · exact hacc
            · split at h
              · exact ih _ (keepMax_pred hacc hv) r h
              · split at h
                · exact ih _ (keepMax_pred hacc hv) r h
                · exact ih acc hacc r h

/-- C1: whenever `GetUpdatedVersion` returns a next version, that version
compares strictly greater than the current version under the code's semver
precedence; a candidate less than or equal to the current version is never
returned. -/
theorem getUpdatedVersion_gt_c1 (flags : Flags) (cur : Semver)
    (versions : List DepVersion) (r : Semver)
    (h : GetUpdatedVersion flags cur versions = some r) : 0 < r.Compare cur := by
  unfold GetUpdatedVersion at h
  cases hm : updLoop flags cur versions none with
  | none => simp [hm] at h
  | some l =>
    simp only [hm] at h
    by_cases hz : cur.Compare l = 0
    · simp [hz] at h
    · rw [if_neg hz] at h
      cases h
      exact updLoop_gt flags cur versions none (by intro a ha; cases ha) _ hm

/-- Witness for C1 at a concrete input: current 1.0.0, sole candidate 1.0.1,
default flags; the returned 1.0.1 compares strictly above 1.0.0. -/
theorem getUpdatedVersion_gt_c1_witness : 0 < wNext.Compare wCur :=
  getUpdatedVersion_gt_c1 {} wCur [wDep] wNext (by decide)

/-- C6: with the cache present, the registry GET is skipped exactly when the
cached Versions restore succeeds, the adjacent cached ETag entry is readable
and the HEAD request returns an ETag equal to the cached one; in every other
case (including a failed or corrupt restore, modelled by `restored = none`)
the GET is issued, and when it succeeds the fresh ETag and the serialised
Versions are written back to the cache. -/
theorem fetchPhase_etag_gate_c6 (env : FetchEnv) :
    ((fetchPhase env).getIssued = false ↔
      (∃ vs, env.restored = some vs) ∧
        ∃ e, env.cachedEtag = some e ∧ env.headEtag = some e) ∧
    (∀ etag vs, env.getResult = some (etag, vs) →
      (fetchPhase env).getIssued = true →
      (fetchPhase env).wroteEtag = some etag ∧
        (fetchPhase env).wroteVersions = some (saveVersions vs)) := by
  obtain ⟨r, ce, he, g⟩ := env
  cases r with
  | none =>
    cases g with
    | none => simp [fetchPhase]
    | some p => obtain ⟨etag, vs⟩ := p; simp [fetchPhase]
  | some vs0 =>
    cases ce with
    | none =>
      cases g with
      | none => simp [fetchPhase]
      | some p => obtain ⟨etag, vs⟩ := p; simp [fetchPhase]
    | some e =>
      cases he with
      | none =>
        cases g with
        | none => simp [fetchPhase]
        | some p => obtain ⟨etag, vs⟩ := p; simp [fetchPhase]
      | some e' =>
        by_cases heq : e = e'
        · subst heq
          cases g with
          | none => simp [fetchPhase]
          | some p => obtain ⟨etag, vs⟩ := p; simp [fetchPhase]
        · have hb : (e != e') = true := by simpa [bne_iff_ne] using heq
          cases g with
          | none => simp [fetchPhase, hb, heq, Ne.symm heq]
          | some p => obtain ⟨etag, vs⟩ := p; simp [fetchPhase, hb, heq, Ne.symm heq]

/-- A cache-hit environment: restore succeeds and the HEAD ETag matches the
cached one. -/
def wEnvHit : FetchEnv :=
  { restored := some [wDep], cachedEtag := some "W", headEtag := some "W",
    getResult := none }

/-- A cache-miss environment: the restore fails, so the GET runs and
succeeds. -/
def wEnvMiss : FetchEnv :=
  { restored := none, cachedEtag := some "W", headEtag := some "W",
    getResult := some ("E2", [wDep]) }

/-- Witness for C6: on a cache hit the GET is skipped; on a failed restore the
GET runs and its ETag and serialised Versions are written back. -/
theorem fetchPhase_etag_gate_c6_witness :
    (fetchPhase wEnvHit).getIssued = false ∧
    (fetchPhase wEnvMiss).wroteEtag = some "E2" ∧
    (fetchPhase wEnvMiss).wroteVersions = some (saveVersions [wDep]) :=
  ⟨(fetchPhase_etag_gate_c6 wEnvHit).1.mpr ⟨⟨[wDep], rfl⟩, "W", rfl, rfl⟩,
    ((fetchPhase_etag_gate_c6 wEnvMiss).2 "E2" [wDep] rfl rfl).1,
    ((fetchPhase_etag_gate_c6 wEnvMiss).2 "E2" [wDep] rfl rfl).2⟩

/-- C9: a registry request targets the scoped registry URL and carries the
bearer token exactly when the package name starts with the scope declared in
the credentials file, given that the scoped registry and auth token are
configured; a package not starting with the scope goes to the default
registry base with no Authorization header. -/
theorem makeRegistryRequest_scope_c9 (method registry packageName : List Char)
    (cfg : NpmrcConfig) (hreg : cfg.registry ≠ []) (htok : cfg.authToken ≠ []) :
    ((makeRegistryRequest method registry packageName cfg).authorization =
        some ("Bearer ".toList ++ cfg.authToken) ↔
      cfg.scope.isPrefixOf packageName = true) ∧
    (cfg.scope.isPrefixOf packageName = true →
      (makeRegistryRequest method registry packageName cfg).url =
        cfg.registry ++ ['/'] ++ packageName) ∧
    (cfg.scope.isPrefixOf packageName = false →
      (makeRegistryRequest method registry packageName cfg).url =
        registry ++ ['/'] ++ packageName ∧
      (makeRegistryRequest method registry packageName cfg).authorization = none) := by
  have hr : (cfg.registry == []) = false := by
    cases hx : cfg.registry == [] with
    | true => exact absurd (by simpa using hx) hreg
    | false => rfl
  have ht : (cfg.authToken == []) = false := by
    cases hx : cfg.authToken == [] with
    | true => exact absurd (by simpa using hx) htok
    | false => rfl
  cases hp : cfg.scope.isPrefixOf packageName <;>
    simp [makeRegistryRequest, hp, hr, ht]

/-- Credentials configuration of the spec's scoped-registry scenario. -/
def wCfg : NpmrcConfig :=
  { registry := "https://reg.acme".toList, authToken := "TOKEN".toList,
    scope := "@acme".toList }

/-- Witness for C9 at the spec's scenario: the scoped package goes to the
scoped registry with a bearer token, and an unscoped package goes to the
default registry without one. -/
theorem makeRegistryRequest_scope_c9_witness :
    (makeRegistryRequest "GET".toList "https://registry.npmjs.org".toList
        "@acme/widget".toList wCfg).url =
      "https://reg.acme".toList ++ ['/'] ++ "@acme/widget".toList ∧
    (makeRegistryRequest "GET".toList "https://registry.npmjs.org".toList
        "lodash".toList wCfg).authorization = none :=
  ⟨(makeRegistryRequest_scope_c9 "GET".toList "https://registry.npmjs.org".toList
      "@acme/widget".toList wCfg (by decide) (by decide)).2.1 (by decide),
    ((makeRegistryRequest_scope_c9 "GET".toList "https://registry.npmjs.org".toList
      "lodash".toList wCfg (by decide) (by decide)).2.2 (by decide)).2⟩

/-- C10: a credentials line records a setting only when splitting it on '='
yields exactly two parts; a ":_authToken" or ":registry" line whose value
itself contains an '=' (for example a base64 token ending in '=') is silently
ignored, blank and '#'-comment lines are skipped, a well-formed scoped
registry line records registry and scope, and the parser never fails on the
content. -/
theorem parseNpmrc_lines_c10 :
    (∀ cfg line, ((trimL line).splitOn '=').length ≠ 2 →
      processNpmrcLine cfg line = cfg) ∧
    (∀ cfg line, trimL line = [] ∨ (trimL line).head? = some '#' →
      processNpmrcLine cfg line = cfg) ∧
    (∀ cfg, processNpmrcLine cfg "@acme:_authToken=dG9rZW4=".toList = cfg) ∧
    (processNpmrcLine {} "@acme:registry=https://reg.acme/".toList =
      { registry := "https://reg.acme/".toList, authToken := [],
        scope := "@acme".toList }) ∧
    (∀ content, parseNpmrc content = Except.ok (parseNpmrcContent content)) := by
  refine ⟨?_, ?_, ?_, ?_, ?_⟩
  · intro cfg line h
    simp only [processNpmrcLine]
    split
    · rfl
    · split
      · rename_i k v hs
        exact absurd (by rw [hs]; rfl) h
      · rfl
  · intro cfg line h
    simp only [processNpmrcLine]
    rw [if_pos h]
  · intro cfg; rfl
  · rfl
  · intro content; rfl

/-- Witness for C10: a line with two '=' characters records nothing, and a
blank line is skipped. -/
theorem parseNpmrc_lines_c10_witness :
    processNpmrcLine {} "k=v=w".toList = ({} : NpmrcConfig) ∧
    processNpmrcLine wCfg "   ".toList = wCfg :=
  ⟨parseNpmrc_lines_c10.1 {} "k=v=w".toList (by decide),
    parseNpmrc_lines_c10.2.1 wCfg "   ".toList (Or.inl (by decide))⟩

/-- Lexicographic order facts: `goStrLt` is irreflexive. -/
theorem goStrLt_irrefl : ∀ x, goStrLt x x = false
  | [] => rfl
  | a :: as => by simp [goStrLt, lt_irrefl, goStrLt_irrefl as]

/-- Lexicographic order facts: `goStrLt` is asymmetric. -/
theorem goStrLt_asymm : ∀ x y, goStrLt x y = true → goStrLt y x = false
  | [], [] => by intro h; exact absurd h (by simp [goStrLt])
  | [], _ :: _ => by intro _; rfl
  | _ :: _, [] => by intro h; exact absurd h (by simp [goStrLt])
  | a :: as, b :: bs => by
    intro h
    rcases lt_trichotomy a b with hab | hab | hab
    · simp [goStrLt, hab, asymm hab]
    · subst hab
      simp only [goStrLt, lt_irrefl, if_false] at h ⊢
      exact goStrLt_asymm as bs h
    · simp [goStrLt, hab, asymm hab] at h

/-- Lexicographic order facts: `goStrLt` is connex on distinct lists. -/
theorem goStrLt_connex : ∀ x y, x ≠ y → goStrLt x y = true ∨ goStrLt y x = true
  | [], [] => by intro h; exact absurd rfl h
  | [], _ :: _ => by intro _; left; rfl
  | _ :: _, [] => by intro _; right; rfl
  | a :: as, b :: bs => by
    intro h
    rcases lt_trichotomy a b with hab | hab | hab
    · left; simp [goStrLt, hab]
    · subst hab
      have hne : as ≠ bs := by intro he; exact h (by rw [he])
      rcases goStrLt_connex as bs hne with hc | hc
      · left; simp [goStrLt, lt_irrefl, hc]
      · right; simp [goStrLt, lt_irrefl, hc]
    · right; simp [goStrLt, hab]

/-- Lexicographic order facts: `goStrLt` is transitive. -/
theorem goStrLt_trans : ∀ x y z, goStrLt x y = true → goStrLt y z = true →
    goStrLt x z = true
  | x, [], _ => by
    intro h _; cases x <;> simp [goStrLt] at h
  | x, _ :: _, [] => by intro _ h; exact absurd h (by simp [goStrLt])
  | [], _ :: _, _ :: _ => by intro _ _; rfl
  | a :: as, b :: bs, c :: cs => by
    intro h1 h2
    rcases lt_trichotomy a b with hab | hab | hab
    · rcases lt_trichotomy b c with hbc | hbc | hbc
      · simp [goStrLt, lt_trans hab hbc]
      · subst hbc; simp [goStrLt, hab]
      · simp [goStrLt, hbc, asymm hbc] at h2
    · subst hab
      rcases lt_trichotomy a c with hac | hac | hac
      · simp [goStrLt, hac]
      · subst hac
        simp only [goStrLt, lt_irrefl, if_false] at h1 h2 ⊢
        exact goStrLt_trans as bs cs h1 h2
      · simp [goStrLt, hac, asymm hac] at h2
    · simp [goStrLt, hab, asymm hab] at h1

/-- Numeral comparison facts: `compareIntL` vanishes exactly on equal
strings. -/
theorem compareIntL_eq_zero {x y : List Char} : compareIntL x y = 0 ↔ x = y := by
  unfold compareIntL
  split_ifs <;> simp_all

/-- Numeral comparison facts: negative exactly on shorter length or equal
length with smaller lexicographic order. -/
theorem compareIntL_neg_iff {x y : List Char} :
    compareIntL x y = -1 ↔
      x.length < y.length ∨ (x.length = y.length ∧ goStrLt x y = true) := by
  unfold compareIntL
  split_ifs with h1 h2 h3 h4
  · subst h1; simp [goStrLt_irrefl]
  · simp [h2]
  · constructor
    · intro h; exact absurd h (by decide)
    · intro h; rcases h with h | ⟨h, _⟩ <;> omega
  · simp [h4]; omega
  · constructor
    · intro h; exact absurd h (by decide)
    · intro h
      rcases h with h | ⟨_, h⟩
      · exact absurd h h2
      · exact absurd h h4

/-- Numeral comparison facts: swapping the arguments negates the result. -/
theorem compareIntL_swap (x y : List Char) : compareIntL y x = -(compareIntL x y) := by
  by_cases hxy : x = y
  · subst hxy; simp [compareIntL]
  · have hyx : y ≠ x := Ne.symm hxy
    rcases Nat.lt_trichotomy x.length y.length with hl | hl | hl
    · simp [compareIntL, hxy, hyx, hl, Nat.lt_asymm hl]
    · rcases goStrLt_connex x y hxy with hg | hg
      · have hg' := goStrLt_asymm x y hg
        simp [compareIntL, hxy, hyx, hl, Nat.lt_irrefl, hg, hg']
      · have hg' := goStrLt_asymm y x hg
        simp [compareIntL, hxy, hyx, hl, Nat.lt_irrefl, hg, hg']
    · simp [compareIntL, hxy, hyx, hl, Nat.lt_asymm hl]

/-- Numeral comparison facts: the negative case is transitive. -/
theorem compareIntL_neg_trans {x y z : List Char} (h1 : compareIntL x y = -1)
    (h2 : compareIntL y z = -1) : compareIntL x z = -1 := by
  rw [compareIntL_neg_iff] at h1 h2 ⊢
  rcases h1 with h1 | ⟨h1, hg1⟩
  · rcases h2 with h2 | ⟨h2, _⟩
    · exact Or.inl (Nat.lt_trans h1 h2)
    · exact Or.inl (h2 ▸ h1)
  · rcases h2 with h2 | ⟨h2, hg2⟩
    · exact Or.inl (h1 ▸ h2)
    · exact Or.inr ⟨h1.trans h2, goStrLt_trans x y z hg1 hg2⟩

/-- Identifier comparison facts: on distinct numeric identifiers `cmpIdent`
coincides with `compareIntL`. -/
theorem cmpIdent_num_eq (dx dy : List Char) (h : dx ≠ dy) (nx : isNum dx = true)
    (ny : isNum dy = true) : cmpIdent dx dy = compareIntL dx dy := by
  simp [cmpIdent, compareIntL, nx, ny, h]

/-- Identifier comparison facts: the result on distinct identifiers is -1 or
1. -/
theorem cmpIdent_ne_zero (dx dy : List Char) : cmpIdent dx dy = -1 ∨ cmpIdent dx dy = 1 := by
  unfold cmpIdent
  split_ifs <;> simp

/-- Identifier comparison facts: swapping distinct identifiers negates the
result. -/
theorem cmpIdent_swap (dx dy : List Char) (h : dx ≠ dy) :
    cmpIdent dy dx = -(cmpIdent dx dy) := by
  by_cases nx : isNum dx = true <;> by_cases ny : isNum dy = true
  · rw [cmpIdent_num_eq dx dy h nx ny, cmpIdent_num_eq dy dx (Ne.symm h) ny nx]
    exact compareIntL_swap dx dy
  · simp [cmpIdent, nx, ny, Ne.symm h]
  · simp [cmpIdent, nx, ny, Ne.symm h]
  · rcases goStrLt_connex dx dy h with hg | hg
    · have hg' := goStrLt_asymm dx dy hg
      simp [cmpIdent, nx, ny, hg, hg']
    · have hg' := goStrLt_asymm dy dx hg
      simp [cmpIdent, nx, ny, hg, hg']

/-- Identifier comparison facts: the negative case is transitive and forces
the endpoints apart. -/
theorem cmpIdent_neg_trans (dx dy dz : List Char) (hxy : dx ≠ dy) (hyz : dy ≠ dz)
    (h1 : cmpIdent dx dy = -1) (h2 : cmpIdent dy dz = -1) :
    dx ≠ dz ∧ cmpIdent dx dz = -1 := by
  by_cases nx : isNum dx = true <;> by_cases ny : isNum dy = true <;>
    by_cases nz : isNum dz = true
  · have hxz : dx ≠ dz := by
      intro he
      subst he
      rw [cmpIdent_num_eq dx dy hxy nx ny] at h1
      rw [cmpIdent_num_eq dy dx hyz ny nx, compareIntL_swap dx dy, h1] at h2
      exact absurd h2 (by decide)
    refine ⟨hxz, ?_⟩
    rw [cmpIdent_num_eq dx dy hxy nx ny] at h1
    rw [cmpIdent_num_eq dy dz hyz ny nz] at h2
    rw [cmpIdent_num_eq dx dz hxz nx nz]
    exact compareIntL_neg_trans h1 h2
  · have hxz : dx ≠ dz := by intro he; rw [he] at nx; exact nz nx
    exact ⟨hxz, by simp [cmpIdent, nx, nz, hxz]⟩
  · exact absurd h2 (by simp [cmpIdent, ny, nz])
  · have hxz : dx ≠ dz := by intro he; rw [he] at nx; exact nz nx
    exact ⟨hxz, by simp [cmpIdent, nx, nz, hxz]⟩
  · exact absurd h1 (by simp [cmpIdent, nx, ny])
  · exact absurd h1 (by simp [cmpIdent, nx, ny])
  · exact absurd h2 (by simp [cmpIdent, ny, nz])
  · have hg1 : goStrLt dx dy = true := by
      by_contra hg
      simp [cmpIdent, nx, ny, hg] at h1
    have hg2 : goStrLt dy dz = true := by
      by_contra hg
      simp [cmpIdent, ny, nz, hg] at h2
    have hg3 := goStrLt_trans dx dy dz hg1 hg2
    have hxz : dx ≠ dz := by
      intro he
      rw [he] at hg1
      exact absurd (goStrLt_asymm dz dy hg1) (by simp [hg2])
    exact ⟨hxz, by simp [cmpIdent, nx, nz, hg3]⟩

/-- Identifier-list comparison facts: the result is never 0. -/
theorem cmpIdents_ne_zero : ∀ xs ys : List (List Char), cmpIdents xs ys ≠ 0
  | [], _ => by simp [cmpIdents]
  | _ :: _, [] => by simp [cmpIdents]
  | dx :: xs, dy :: ys => by
    by_cases h : dx = dy
    · subst h
      simpa [cmpIdents] using cmpIdents_ne_zero xs ys
    · rcases cmpIdent_ne_zero dx dy with hc | hc <;> simp [cmpIdents, h, hc]

/-- Identifier-list comparison facts: swapping distinct lists negates the
result. -/
theorem cmpIdents_swap : ∀ xs ys : List (List Char), xs ≠ ys →
    cmpIdents ys xs = -(cmpIdents xs ys)
  | [], [] => by intro h; exact absurd rfl h
  | [], _ :: _ => by intro _; rfl
  | _ :: _, [] => by intro _; rfl
  | dx :: xs, dy :: ys => by
    intro h
    by_cases hd : dx = dy
    · subst hd
      have hts : xs ≠ ys := by intro he; exact h (by rw [he])
      simpa [cmpIdents] using cmpIdents_swap xs ys hts
    · simp [cmpIdents, hd, Ne.symm hd, cmpIdent_swap dx dy hd]

/-- Identifier-list comparison facts: the negative case is transitive. -/
theorem cmpIdents_neg_trans : ∀ xs ys zs : List (List Char), xs ≠ ys → ys ≠ zs →
    cmpIdents xs ys = -1 → cmpIdents ys zs = -1 → cmpIdents xs zs = -1
  | [], _, zs => by
    intro _ _ _ _
    cases zs <;> rfl
  | _ :: _, [], _ => by intro _ _ h1 _; exact absurd h1 (by simp [cmpIdents])
  | _ :: _, _ :: _, [] => by intro _ _ _ h2; exact absurd h2 (by simp [cmpIdents])
  | dx :: xs, dy :: ys, dz :: zs => by
    intro hxy hyz h1 h2
    by_cases hd1 : dx = dy <;> by_cases hd2 : dy = dz
    · subst hd1; subst hd2
      have hts1 : xs ≠ ys := by intro he; exact hxy (by rw [he])
      have hts2 : ys ≠ zs := by intro he; exact hyz (by rw [he])
      have hred : ∀ us vs : List (List Char),
          cmpIdents (dx :: us) (dx :: vs) = cmpIdents us vs := by
        intro us vs; simp [cmpIdents]
      rw [hred] at h1 h2
      rw [hred]
      exact cmpIdents_neg_trans xs ys zs hts1 hts2 h1 h2
    · subst hd1
      simp only [cmpIdents, if_neg (by simp : ¬ (dx ≠ dx))] at h1
      simp only [cmpIdents, if_pos hd2] at h2
      simp [cmpIdents, hd2, h2]
    · subst hd2
      simp only [cmpIdents, if_pos hd1] at h1
      simp [cmpIdents, hd1, h1]
    · simp only [cmpIdents, if_pos hd1] at h1
      simp only [cmpIdents, if_pos hd2] at h2
      obtain ⟨hxz, hc⟩ := cmpIdent_neg_trans dx dy dz hd1 hd2 h1 h2
      simp [cmpIdents, hxz, hc]

/-- Every nonempty parse-shaped prerelease string is its leading '-' followed
by the dot-join of its identifier list, so distinct shaped strings have
distinct identifier lists. -/
theorem preShaped_tail_inj {x y : List Char} (hx : PreShaped x) (hy : PreShaped y)
    (hxe : x ≠ []) (hye : y ≠ [])
    (h : x.tail.splitOn '.' = y.tail.splitOn '.') : x = y := by
  rcases hx with hx | hx
  · exact absurd hx hxe
  · rcases hy with hy | hy
    · exact absurd hy hye
    · cases x with
      | nil => cases hxe rfl
      | cons a xs =>
        cases y with
        | nil => cases hye rfl
        | cons b ys =>
          simp only [List.head?_cons, Option.some_inj] at hx hy
          subst hx; subst hy
          simp only [List.tail_cons] at h
          have h1 : List.intercalate ['.'] (xs.splitOn '.') = xs :=
            List.intercalate_splitOn xs '.'
          have h2 : List.intercalate ['.'] (ys.splitOn '.') = ys :=
            List.intercalate_splitOn ys '.'
          rw [← h1, ← h2, h]

/-- Prerelease comparison facts: `comparePre` vanishes exactly on equal
strings. -/
theorem comparePre_zero_iff {x y : List Char} : comparePre x y = 0 ↔ x = y := by
  constructor
  · intro h
    unfold comparePre at h
    split_ifs at h with h1 h2 h3
    all_goals first
      | exact h1
      | exact absurd h (by decide)
      | (unfold cmpAux at h; exact absurd h (cmpIdents_ne_zero _ _))
  · intro h; subst h; simp [comparePre]

/-- Prerelease comparison facts: results lie in {-1, 0, 1}. -/
theorem cmpIdents_range : ∀ xs ys : List (List Char),
    cmpIdents xs ys = -1 ∨ cmpIdents xs ys = 1
  | [], _ => Or.inl rfl
  | _ :: _, [] => Or.inr rfl
  | dx :: xs, dy :: ys => by
    by_cases h : dx = dy
    · subst h
      simpa [cmpIdents] using cmpIdents_range xs ys
    · rcases cmpIdent_ne_zero dx dy with hc | hc <;> simp [cmpIdents, h, hc]

/-- Prerelease comparison facts: results lie in {-1, 0, 1}. -/
theorem comparePre_range (x y : List Char) :
    comparePre x y = -1 ∨ comparePre x y = 0 ∨ comparePre x y = 1 := by
  unfold comparePre
  split_ifs <;> simp [cmpAux]
  rcases cmpIdents_range (x.tail.splitOn '.') (y.tail.splitOn '.') with h | h <;>
    simp [h]

/-- Prerelease comparison facts: swapping shaped arguments negates the
result. -/
theorem comparePre_swap {x y : List Char} (hx : PreShaped x) (hy : PreShaped y) :
    comparePre y x = -(comparePre x y) := by
  by_cases hxy : x = y
  · subst hxy; simp [comparePre]
  · by_cases hxe : x = []
    · subst hxe
      have hye : y ≠ [] := fun he => hxy (he ▸ rfl)
      simp [comparePre, hxy, Ne.symm hxy, hye]
    · by_cases hye : y = []
      · subst hye
        simp [comparePre, hxy, Ne.symm hxy, hxe]
      · have hsp : x.tail.splitOn '.' ≠ y.tail.splitOn '.' := by
          intro he
          exact hxy (preShaped_tail_inj hx hy hxe hye he)
        simp only [comparePre, if_neg hxy, if_neg (Ne.symm hxy), if_neg hxe,
          if_neg hye, cmpAux]
        exact cmpIdents_swap _ _ hsp

/-- Prerelease comparison facts: the negative case is transitive on shaped
strings. -/
theorem comparePre_neg_trans {x y z : List Char} (hx : PreShaped x)
    (hy : PreShaped y) (hz : PreShaped z) (h1 : comparePre x y = -1)
    (h2 : comparePre y z = -1) : comparePre x z = -1 := by
  have hxy : x ≠ y := by intro he; rw [comparePre_zero_iff.mpr he] at h1; cases h1
  have hyz : y ≠ z := by intro he; rw [comparePre_zero_iff.mpr he] at h2; cases h2
  have hxe : x ≠ [] := by
    intro he; rw [he] at h1 hxy
    simp [comparePre, hxy] at h1
  have hye : y ≠ [] := by
    intro he; rw [he] at h2 hyz
    simp [comparePre, hyz] at h2
  by_cases hze : z = []
  · by_cases hxz : x = z
    · rw [hxz, hze] at hxe; exact absurd rfl hxe
    · simp [comparePre, hxz, hxe, hze]
  · have h1' : cmpIdents (x.tail.splitOn '.') (y.tail.splitOn '.') = -1 := by
      simpa [comparePre, hxy, hxe, hye, cmpAux] using h1
    have h2' : cmpIdents (y.tail.splitOn '.') (z.tail.splitOn '.') = -1 := by
      simpa [comparePre, hyz, hye, hze, cmpAux] using h2
    have hsp1 : x.tail.splitOn '.' ≠ y.tail.splitOn '.' := by
      intro he; exact hxy (preShaped_tail_inj hx hy hxe hye he)
    have hsp2 : y.tail.splitOn '.' ≠ z.tail.splitOn '.' := by
      intro he; exact hyz (preShaped_tail_inj hy hz hye hze he)
    have hxz : x ≠ z := by
      intro he
      rw [he] at h1' hsp1
      rw [cmpIdents_swap _ _ hsp1, h1'] at h2'
      exact absurd h2' (by decide)
    have h3 := cmpIdents_neg_trans _ _ _ hsp1 hsp2 h1' h2'
    simpa [comparePre, hxz, hxe, hze, cmpAux] using h3

/-- Compare facts: reflexivity. -/
theorem compare_refl (v : Semver) : v.Compare v = 0 := by
  cases hv : v.isValid <;> simp [Semver.Compare, hv, compareIntL, comparePre]

/-- Numeral comparison facts: results lie in {-1, 0, 1}. -/
theorem compareIntL_range (x y : List Char) :
    compareIntL x y = -1 ∨ compareIntL x y = 0 ∨ compareIntL x y = 1 := by
  unfold compareIntL
  split_ifs <;> simp

/-- Compare facts: results lie in {-1, 0, 1}. -/
theorem compare_range (v w : Semver) :
    v.Compare w = -1 ∨ v.Compare w = 0 ∨ v.Compare w = 1 := by
  unfold Semver.Compare
  split_ifs <;> try simp
  rcases compareIntL_range v.major w.major with c1 | c1 | c1 <;> simp [c1] <;>
    rcases compareIntL_range v.minor w.minor with c2 | c2 | c2 <;> simp [c2] <;>
    rcases compareIntL_range v.patch w.patch with c3 | c3 | c3 <;> simp [c3] <;>
    exact comparePre_range _ _

/-- Compare facts: a zero comparison forces equal validity and, on valid
versions, equal major, minor, patch and prerelease fields. -/
theorem compare_zero_fields {v w : Semver} (h : v.Compare w = 0) :
    v.isValid = w.isValid ∧
      (v.isValid = true →
        v.major = w.major ∧ v.minor = w.minor ∧ v.patch = w.patch ∧
          v.prerelease = w.prerelease) := by
  cases hv : v.isValid with
  | false =>
    cases hw : w.isValid with
    | false => simp [hv, hw]
    | true => simp [Semver.Compare, hv, hw] at h
  | true =>
    cases hw : w.isValid with
    | false => simp [Semver.Compare, hv, hw] at h
    | true =>
      refine ⟨rfl, fun _ => ?_⟩
      by_cases h1 : compareIntL v.major w.major = 0
      · by_cases h2 : compareIntL v.minor w.minor = 0
        · by_cases h3 : compareIntL v.patch w.patch = 0
          · have hpre : comparePre v.prerelease w.prerelease = 0 := by
              simpa [Semver.Compare, hv, hw, h1, h2, h3] using h
            exact ⟨compareIntL_eq_zero.mp h1, compareIntL_eq_zero.mp h2,
              compareIntL_eq_zero.mp h3, comparePre_zero_iff.mp hpre⟩
          · simp [Semver.Compare, hv, hw, h1, h2, h3] at h
        · simp [Semver.Compare, hv, hw, h1, h2] at h
      · simp [Semver.Compare, hv, hw, h1] at h

/-- Compare facts: a version comparing equal to another compares the same way
against every third version. -/
theorem compare_zero_congr_left {v w : Semver} (h : v.Compare w = 0) (u : Semver) :
    v.Compare u = w.Compare u := by
  obtain ⟨hval, hfields⟩ := compare_zero_fields h
  cases hv : v.isValid with
  | false =>
    rw [hv] at hval
    simp [Semver.Compare, hv, ← hval]
  | true =>
    obtain ⟨h1, h2, h3, h4⟩ := hfields hv
    rw [hv] at hval
    simp only [Semver.Compare, hv, ← hval, h1, h2, h3, h4]

/-- Compare facts: a version comparing equal to another is compared the same
way by every third version. -/
theorem compare_zero_congr_right {v w : Semver} (h : v.Compare w = 0) (u : Semver) :
    u.Compare v = u.Compare w := by
  obtain ⟨hval, hfields⟩ := compare_zero_fields h
  cases hv : v.isValid with
  | false =>
    rw [hv] at hval
    simp [Semver.Compare, hv, ← hval]
  | true =>
    obtain ⟨h1, h2, h3, h4⟩ := hfields hv
    rw [hv] at hval
    simp only [Semver.Compare, hv, ← hval, h1, h2, h3, h4]

/-- Compare facts: zero comparisons are symmetric. -/
theorem compare_zero_symm {v w : Semver} (h : v.Compare w = 0) : w.Compare v = 0 := by
  have := compare_zero_congr_left h v
  rw [compare_refl] at this
  exact this.symm

/-- Compare facts: characterisation of a negative comparison on valid
versions as the lexicographic chain over the four components. -/
theorem compare_valid_neg_iff {v w : Semver} (hv : v.isValid = true)
    (hw : w.isValid = true) :
    v.Compare w = -1 ↔
      compareIntL v.major w.major = -1 ∨
      (compareIntL v.major w.major = 0 ∧
        (compareIntL v.minor w.minor = -1 ∨
        (compareIntL v.minor w.minor = 0 ∧
          (compareIntL v.patch w.patch = -1 ∨
          (compareIntL v.patch w.patch = 0 ∧
            comparePre v.prerelease w.prerelease = -1))))) := by
  simp only [Semver.Compare, hv, hw, Bool.not_true, Bool.and_self, Bool.false_and,
    Bool.and_false, if_false]
  by_cases h1 : compareIntL v.major w.major = 0 <;>
    by_cases h2 : compareIntL v.minor w.minor = 0 <;>
    by_cases h3 : compareIntL v.patch w.patch = 0 <;>
    simp [h1, h2, h3]

/-- Compare facts: swapping shaped arguments negates the result. -/
theorem compare_swap {v w : Semver} (hv : Shaped v) (hw : Shaped w) :
    w.Compare v = -(v.Compare w) := by
  cases hvv : v.isValid <;> cases hww : w.isValid <;>
    simp only [Semver.Compare, hvv, hww, Bool.not_true, Bool.not_false,
      Bool.and_self, Bool.and_false, Bool.false_and, if_true, if_false]
  · rfl
  · rfl
  · rfl
  · rw [compareIntL_swap v.major w.major, compareIntL_swap v.minor w.minor,
      compareIntL_swap v.patch w.patch, comparePre_swap hv hw]
    by_cases h1 : compareIntL v.major w.major = 0 <;>
      by_cases h2 : compareIntL v.minor w.minor = 0 <;>
      by_cases h3 : compareIntL v.patch w.patch = 0 <;>
      simp [h1, h2, h3, neg_eq_zero]

/-- Compare facts: the negative case is transitive on shaped versions. -/
theorem compare_neg_trans {a b c : Semver} (ha : Shaped a) (hb : Shaped b)
    (hc : Shaped c) (h1 : a.Compare b = -1) (h2 : b.Compare c = -1) :
    a.Compare c = -1 := by
  cases hca : c.isValid with
  | false =>
    cases hcb : b.isValid with
    | false => simp [Semver.Compare, hcb, hca] at h2
    | true =>
      have : b.Compare c = 1 := by simp [Semver.Compare, hcb, hca]
      rw [this] at h2; exact absurd h2 (by decide)
  | true =>
    cases hva : a.isValid with
    | false => simp [Semver.Compare, hva, hca]
    | true =>
      cases hvb : b.isValid with
      | false =>
        have : a.Compare b = 1 := by simp [Semver.Compare, hva, hvb]
        rw [this] at h1; exact absurd h1 (by decide)
      | true =>
        rw [compare_valid_neg_iff hva hvb] at h1
        rw [compare_valid_neg_iff hvb hca] at h2
        rw [compare_valid_neg_iff hva hca]
        rcases h1 with h1 | ⟨h1z, h1'⟩
        · rcases h2 with h2 | ⟨h2z, _⟩
          · exact Or.inl (compareIntL_neg_trans h1 h2)
          · exact Or.inl (compareIntL_eq_zero.mp h2z ▸ h1)
        · have e1 := compareIntL_eq_zero.mp h1z
          rcases h2 with h2 | ⟨h2z, h2'⟩
          · exact Or.inl (e1 ▸ h2)
          · have e1' := compareIntL_eq_zero.mp h2z
            refine Or.inr ⟨compareIntL_eq_zero.mpr (e1.trans e1'), ?_⟩
            rcases h1' with h1' | ⟨h1z2, h1''⟩
            · rcases h2' with h2' | ⟨h2z2, _⟩
              · exact Or.inl (compareIntL_neg_trans h1' h2')
              · exact Or.inl (compareIntL_eq_zero.mp h2z2 ▸ h1')
            · have e2 := compareIntL_eq_zero.mp h1z2
              rcases h2' with h2' | ⟨h2z2, h2''⟩
              · exact Or.inl (e2 ▸ h2')
              · have e2' := compareIntL_eq_zero.mp h2z2
                refine Or.inr ⟨compareIntL_eq_zero.mpr (e2.trans e2'), ?_⟩
                rcases h1'' with h1'' | ⟨h1z3, h1'''⟩
                · rcases h2'' with h2'' | ⟨h2z3, _⟩
                  · exact Or.inl (compareIntL_neg_trans h1'' h2'')
                  · exact Or.inl (compareIntL_eq_zero.mp h2z3 ▸ h1'')
                · have e3 := compareIntL_eq_zero.mp h1z3
                  rcases h2'' with h2'' | ⟨h2z3, h2'''⟩
                  · exact Or.inl (e3 ▸ h2'')
                  · have e3' := compareIntL_eq_zero.mp h2z3
                    refine Or.inr ⟨compareIntL_eq_zero.mpr (e3.trans e3'), ?_⟩
                    exact comparePre_neg_trans ha hb hc h1''' h2'''

/-- Compare facts: the non-positive case is transitive on shaped versions. -/
theorem compare_le_trans {a b c : Semver} (ha : Shaped a) (hb : Shaped b)
    (hc : Shaped c) (h1 : a.Compare b ≤ 0) (h2 : b.Compare c ≤ 0) :
    a.Compare c ≤ 0 := by
  rcases compare_range a b with hab | hab | hab
  · rcases compare_range b c with hbc | hbc | hbc
    · rw [compare_neg_trans ha hb hc hab hbc]; decide
    · rw [← compare_zero_congr_right hbc a, hab]; decide
    · rw [hbc] at h2; exact absurd h2 (by decide)
  · rw [compare_zero_congr_left hab c]; exact h2
  · rw [hab] at h1; exact absurd h1 (by decide)

/-- Compare facts: a strictly positive comparison flips to strictly negative
under swap on shaped versions. -/
theorem compare_pos_swap {v w : Semver} (hv : Shaped v) (hw : Shaped w)
    (h : 0 < v.Compare w) : w.Compare v ≤ 0 := by
  rw [compare_swap hv hw]
  omega

/-- Every prerelease string produced by `parsePreL` starts with '-'. -/
theorem parsePreL_head {v t r : List Char} (h : parsePreL v = some (t, r)) :
    t.head? = some '-' := by
  unfold parsePreL at h
  split at h
  · dsimp only at h
    split_ifs at h
    simp only [Option.some_inj, Prod.mk.injEq] at h
    rw [← h.1]
    rfl
  · exact absurd h (by simp)

set_option maxHeartbeats 1600000 in
/-- Every record `parse` returns has a parse-shaped prerelease field. -/
theorem parse_preShaped (v0 : List Char) : PreShaped (parse v0).1.prerelease := by
  unfold parse
  split
  · exact Or.inl rfl
  · dsimp only
    cases h1 : parseIntL (List.drop 1
        (List.drop (getRangeOp (if v0.head? = some 'v' then v0.tail else v0)).length
          (if v0.head? = some 'v' then v0.tail else v0))) with
    | none => exact Or.inl rfl
    | some mr1 =>
      obtain ⟨maj, r1⟩ := mr1
      dsimp only
      by_cases hr1 : r1 = []
      · rw [if_pos hr1]; exact Or.inl rfl
      · rw [if_neg hr1]
        by_cases hd1 : r1.head? ≠ some '.'
        · rw [if_pos hd1]; exact Or.inl rfl
        · rw [if_neg hd1]
          cases h2 : parseIntL r1.tail with
          | none => exact Or.inl rfl
          | some mr2 =>
            obtain ⟨mnr, r2⟩ := mr2
            dsimp only
            by_cases hr2 : r2 = []
            · rw [if_pos hr2]; exact Or.inl rfl
            · rw [if_neg hr2]
              by_cases hd2 : r2.head? ≠ some '.'
              · rw [if_pos hd2]; exact Or.inl rfl
              · rw [if_neg hd2]
                cases h3 : parseIntL r2.tail with
                | none => exact Or.inl rfl
                | some mr3 =>
                  obtain ⟨pat, r3⟩ := mr3
                  dsimp only
                  by_cases hd3 : r3.head? = some '-'
                  · rw [if_pos hd3]
                    cases h4 : parsePreL r3 with
                    | none => exact Or.inl rfl
                    | some pr =>
                      obtain ⟨pre, r4⟩ := pr
                      have hh := parsePreL_head h4
                      dsimp only
                      by_cases hb : r4.head? = some '+'
                      · rw [if_pos hb]
                        cases h5 : parseBuildL r4 with
                        | none => exact Or.inr hh
                        | some br =>
                          obtain ⟨bld, r5⟩ := br
                          dsimp only
                          split <;> exact Or.inr hh
                      · rw [if_neg hb]
                        split <;> exact Or.inr hh
                  · rw [if_neg hd3]
                    by_cases hb : r3.head? = some '+'
                    · rw [if_pos hb]
                      cases h5 : parseBuildL r3 with
                      | none => exact Or.inl rfl
                      | some br =>
                        obtain ⟨bld, r5⟩ := br
                        dsimp only
                        split <;> exact Or.inl rfl
                    · rw [if_neg hb]
                      split <;> exact Or.inl rfl

/-- Every value `NewSemver` builds is shaped. -/
theorem newSemver_shaped (s : String) : Shaped (NewSemver s) :=
  parse_preShaped s.toList

/-- A surviving candidate of the minor filter compares strictly above the
current version. -/
theorem minorSurvivor_gt {flags : Flags} {cur : Semver} {v : DepVersion}
    (h : minorSurvivor flags cur v = true) : 0 < v.version.Compare cur := by
  simp only [minorSurvivor, Bool.and_eq_true, decide_eq_true_eq] at h
  exact h.1.1.1

/-- Under the minor filter with maintain-semver off, the candidate loop of
`GetUpdatedVersion` is the maximum fold over the surviving candidates. -/
theorem updLoop_eq_minorFold {flags : Flags} (hm : flags.minor = true)
    (hms : flags.maintainSemver = false) (cur : Semver) :
    ∀ (l : List DepVersion) (acc : Option Semver),
      updLoop flags cur l acc = minorFold flags cur l acc := by
  intro l
  induction l with
  | nil => intro acc; rfl
  | cons v rest ih =>
    intro acc
    by_cases hc1 : v.version.Compare cur ≤ 0
    · have hsurv : minorSurvivor flags cur v = false := by
        have hx : decide (0 < v.version.Compare cur) = false := by
          simp only [decide_eq_false_iff_not]; omega
        simp [minorSurvivor, hx]
      simp only [updLoop, minorFold]
      rw [if_pos hc1, hsurv]
      simp only [Bool.false_eq_true, if_false]
      exact ih acc
    · have hx : decide (0 < v.version.Compare cur) = true := by
        simp only [decide_eq_true_eq]; omega
      by_cases hc3 : (!v.version.Prerelease.isEmpty && !flags.pre) = true
      · have hy : (v.version.Prerelease.isEmpty || flags.pre) = false := by
          revert hc3
          cases v.version.Prerelease.isEmpty <;> cases flags.pre <;> simp
        have hsurv : minorSurvivor flags cur v = false := by
          simp [minorSurvivor, hy]
        simp only [updLoop, minorFold]
        rw [if_neg hc1, if_neg (by simp [hms] : ¬ ((flags.maintainSemver &&
          !(cur.Check v.version)) = true)), if_pos hc3, hsurv]
        simp only [Bool.false_eq_true, if_false]
        exact ih acc
      · have hy : (v.version.Prerelease.isEmpty || flags.pre) = true := by
          revert hc3
          cases v.version.Prerelease.isEmpty <;> cases flags.pre <;> simp
        have hsurv : minorSurvivor flags cur v =
            (cur.Major == v.version.Major && decide (cur.Minor < v.version.Minor)) := by
          simp [minorSurvivor, hx, hy, Bool.and_assoc]
        simp only [updLoop, minorFold]
        rw [if_neg hc1, if_neg (by simp [hms] : ¬ ((flags.maintainSemver &&
          !(cur.Check v.version)) = true)), if_neg hc3, if_pos hm, hsurv]
        exact ih _

/-- A tracked maximum stays present under `keepMax`. -/
theorem keepMax_some (a v : Semver) : ∃ b, keepMax (some a) v = some b := by
  simp only [keepMax]
  split
  · exact ⟨v, rfl⟩
  · exact ⟨a, rfl⟩

/-- Whatever `keepMax` returns is the new candidate or the old maximum. -/
theorem keepMax_eq (acc : Option Semver) (v r : Semver) (h : keepMax acc v = some r) :
    r = v ∨ acc = some r := by
  cases acc with
  | none =>
    simp only [keepMax, Option.some_inj] at h
    exact Or.inl h.symm
  | some b =>
    simp only [keepMax] at h
    split at h <;> simp only [Option.some_inj] at h
    · exact Or.inl h.symm
    · exact Or.inr (by rw [h])

/-- A fold started on a tracked maximum keeps tracking one. -/
theorem minorFold_some_isSome (flags : Flags) (cur : Semver) :
    ∀ (l : List DepVersion) (a : Semver),
      ∃ r, minorFold flags cur l (some a) = some r := by
  intro l
  induction l with
  | nil => intro a; exact ⟨a, rfl⟩
  | cons v rest ih =>
    intro a
    simp only [minorFold]
    split
    · obtain ⟨b, hb⟩ := keepMax_some a v.version
      rw [hb]
      exact ih b
    · exact ih a

/-- The fold returns nothing exactly when no candidate survives. -/
theorem minorFold_none_iff (flags : Flags) (cur : Semver) :
    ∀ l : List DepVersion,
      minorFold flags cur l none = none ↔
        ∀ v ∈ l, minorSurvivor flags cur v = false := by
  intro l
  induction l with
  | nil => simp [minorFold]
  | cons v rest ih =>
    simp only [minorFold]
    by_cases hs : minorSurvivor flags cur v = true
    · rw [if_pos hs]
      simp only [keepMax]
      obtain ⟨r, hr⟩ := minorFold_some_isSome flags cur rest v.version
      rw [hr]
      simp [hs]
    · rw [if_neg hs]
      simp only [Bool.not_eq_true] at hs
      simp [ih, hs]

/-- Whatever the fold returns is the initial maximum or a surviving
candidate. -/
theorem minorFold_mem (flags : Flags) (cur : Semver) :
    ∀ (l : List DepVersion) (acc : Option Semver) (r : Semver),
      minorFold flags cur l acc = some r →
      acc = some r ∨ ∃ v ∈ l, minorSurvivor flags cur v = true ∧ v.version = r := by
  intro l
  induction l with
  | nil =>
    intro acc r h
    exact Or.inl h
  | cons v rest ih =>
    intro acc r h
    simp only [minorFold] at h
    split at h
    · rename_i hs
      rcases ih _ r h with hacc | ⟨w, hw, hsw, hr⟩
      · rcases keepMax_eq acc v.version r hacc with hrv | hold
        · exact Or.inr ⟨v, List.mem_cons_self v rest, hs, hrv.symm⟩
        · exact Or.inl hold
      · exact Or.inr ⟨w, List.mem_cons_of_mem v hw, hsw, hr⟩
    · rcases ih _ r h with hacc | ⟨w, hw, hsw, hr⟩
      · exact Or.inl hacc
      · exact Or.inr ⟨w, List.mem_cons_of_mem v hw, hsw, hr⟩

/-- The fold's result bounds the initial maximum and every surviving
candidate from above. -/
theorem minorFold_max (flags : Flags) (cur : Semver) (r : Semver) (hr : Shaped r) :
    ∀ (l : List DepVersion) (acc : Option Semver),
      (∀ v ∈ l, Shaped v.version) →
      (∀ a, acc = some a → Shaped a) →
      minorFold flags cur l acc = some r →
      (∀ a, acc = some a → a.Compare r ≤ 0) ∧
        ∀ v ∈ l, minorSurvivor flags cur v = true → v.version.Compare r ≤ 0 := by
  intro l
  induction l with
  | nil =>
    intro acc _ _ h
    refine ⟨fun a ha => ?_, by simp⟩
    rw [ha] at h
    simp only [minorFold, Option.some_inj] at h
    rw [h, compare_refl]
  | cons v rest ih =>
    intro acc hl hacc h
    have hvS : Shaped v.version := hl v (List.mem_cons_self v rest)
    have hlrest : ∀ w ∈ rest, Shaped w.version :=
      fun w hw => hl w (List.mem_cons_of_mem v hw)
    simp only [minorFold] at h
    by_cases hs : minorSurvivor flags cur v = true
    · rw [if_pos hs] at h
      have hacc' : ∀ a, keepMax acc v.version = some a → Shaped a := by
        intro a ha
        rcases keepMax_eq acc v.version a ha with hav | hold
        · rw [hav]; exact hvS
        · exact hacc a hold
      obtain ⟨hbound, hrest⟩ := ih _ hlrest hacc' h
      have hvle : v.version.Compare r ≤ 0 := by
        cases acc with
        | none => exact hbound v.version rfl
        | some b =>
          by_cases hgt : 0 < v.version.Compare b
          · exact hbound v.version (by simp [keepMax, hgt])
          · have hvb : v.version.Compare b ≤ 0 := by omega
            have hble : b.Compare r ≤ 0 := hbound b (by simp [keepMax, hgt])
            exact compare_le_trans hvS (hacc b rfl) hr hvb hble
      constructor
      · intro a ha
        cases acc with
        | none => cases ha
        | some b =>
          have hb : b = a := by injection ha
          subst hb
          by_cases hgt : 0 < v.version.Compare b
          · have hble : b.Compare v.version ≤ 0 := compare_pos_swap hvS (hacc b rfl) hgt
            exact compare_le_trans (hacc b rfl) hvS hr hble hvle
          · exact hbound b (by simp [keepMax, hgt])
      · intro w hw hsw
        rcases List.mem_cons.mp hw with hw | hw
        · rw [hw]; exact hvle
        · exact hrest w hw hsw
    · rw [if_neg hs] at h
      obtain ⟨hbound, hrest⟩ := ih _ hlrest hacc h
      refine ⟨hbound, fun w hw hsw => ?_⟩
      rcases List.mem_cons.mp hw with hw | hw
      · rw [hw] at hsw; exact absurd hsw hs
      · exact hrest w hw hsw

/-- C4 counterexample: under the minor filter (maintain-semver off) the claim
promises the candidate 1.2.4 — strictly above the current 1.2.3 and sharing
its major — is returned, but `GetUpdatedVersion` returns nothing on it: the
minor branch also requires the candidate's minor component to exceed the
current one, so a candidate differing only in the patch component is
skipped. -/
theorem getUpdatedVersion_minor_c4_counterexample :
    GetUpdatedVersion minorFlags curMinor [candPatchOnly] = none ∧
    0 < candPatchOnly.version.Compare curMinor ∧
    curMinor.Major = candPatchOnly.version.Major := by
  refine ⟨?_, ?_, ?_⟩ <;> decide

/-- C4 (amended): when the minor scope filter is selected with maintain-semver
off, the selector returns the highest-precedence candidate that is strictly
greater than the current version, passes the prerelease filter, shares the
current major component and has a strictly greater minor component — so a
candidate differing from the current version only in the patch component is
skipped — and it returns nothing exactly when no such candidate exists. -/
theorem getUpdatedVersion_minor_amended_c4 (flags : Flags) (cur : Semver)
    (versions : List DepVersion) (hm : flags.minor = true)
    (hms : flags.maintainSemver = false)
    (hl : ∀ v ∈ versions, Shaped v.version) :
    (∀ r, GetUpdatedVersion flags cur versions = some r →
      (∃ v ∈ versions, minorSurvivor flags cur v = true ∧ v.version = r) ∧
        ∀ v ∈ versions, minorSurvivor flags cur v = true →
          v.version.Compare r ≤ 0) ∧
    (GetUpdatedVersion flags cur versions = none →
      ∀ v ∈ versions, minorSurvivor flags cur v = false) := by
  constructor
  · intro r h
    unfold GetUpdatedVersion at h
    rw [updLoop_eq_minorFold hm hms cur] at h
    cases hf : minorFold flags cur versions none with
    | none => simp only [hf] at h; cases h
    | some l =>
      simp only [hf] at h
      by_cases hz : cur.Compare l = 0
      · rw [if_pos hz] at h; cases h
      · rw [if_neg hz] at h
        have hlr : l = r := by injection h
        subst hlr
        rcases minorFold_mem flags cur versions none l hf with hc | ⟨v, hv, hsv, hvr⟩
        · cases hc
        · have hrS : Shaped l := hvr ▸ hl v hv
          obtain ⟨_, hmax⟩ := minorFold_max flags cur l hrS versions none hl
            (by intro a ha; cases ha) hf
          exact ⟨⟨v, hv, hsv, hvr⟩, hmax⟩
  · intro h v hv
    unfold GetUpdatedVersion at h
    rw [updLoop_eq_minorFold hm hms cur] at h
    cases hf : minorFold flags cur versions none with
    | none => exact ((minorFold_none_iff flags cur versions).mp hf) v hv
    | some l =>
      simp only [hf] at h
      by_cases hz : cur.Compare l = 0
      · rcases minorFold_mem flags cur versions none l hf with hc | ⟨w, hw, hsw, hwr⟩
        · cases hc
        · have hgt : 0 < l.Compare cur := hwr ▸ minorSurvivor_gt hsw
          have hz' := compare_zero_symm hz
          omega
      · rw [if_neg hz] at h; cases h

/-- Witness for the amended C4 at a concrete input: current 1.2.3 with
candidates 1.2.4 and 1.3.0 under the minor filter; the returned 1.3.0 is a
surviving candidate bounding all survivors from above. -/
theorem getUpdatedVersion_minor_amended_c4_witness :
    (∃ v ∈ [candPatchOnly, cand130], minorSurvivor minorFlags curMinor v = true ∧
        v.version = cand130.version) ∧
      ∀ v ∈ [candPatchOnly, cand130], minorSurvivor minorFlags curMinor v = true →
        v.version.Compare cand130.version ≤ 0 :=
  (getUpdatedVersion_minor_amended_c4 minorFlags curMinor [candPatchOnly, cand130]
    rfl rfl (by decide)).1 cand130.version (by decide)

/-- Inserting into the descending list is a permutation of consing. -/
theorem insertDesc_perm (v : DepVersion) :
    ∀ l : List DepVersion, (insertDesc v l).Perm (v :: l) := by
  intro l
  induction l with
  | nil => exact List.Perm.refl _
  | cons w rest ih =>
    simp only [insertDesc]
    split
    · exact List.Perm.refl _
    · exact (ih.cons w).trans (List.Perm.swap v w rest)

/-- Membership in the inserted list. -/
theorem insertDesc_mem {v y : DepVersion} {l : List DepVersion}
    (h : y ∈ insertDesc v l) : y = v ∨ y ∈ l := by
  have := (insertDesc_perm v l).mem_iff.mp h
  simpa using this

/-- The materialised collection is a permutation of its input. -/
theorem setVersions_perm (vs : List DepVersion) : (SetVersions vs).Perm vs := by
  induction vs with
  | nil => exact List.Perm.refl _
  | cons v rest ih =>
    exact (insertDesc_perm v (SetVersions rest)).trans (ih.cons v)

/-- Insertion preserves the descending pairwise order on shaped entries. -/
theorem insertDesc_pairwise {v : DepVersion} {l : List DepVersion}
    (hv : Shaped v.version) (hl : ∀ w ∈ l, Shaped w.version)
    (hp : List.Pairwise (fun a b => b.version.Compare a.version ≤ 0) l) :
    List.Pairwise (fun a b => b.version.Compare a.version ≤ 0) (insertDesc v l) := by
  induction l with
  | nil => exact List.pairwise_singleton _ v
  | cons w rest ih =>
    have hwS : Shaped w.version := hl w (List.mem_cons_self w rest)
    have hrestS : ∀ x ∈ rest, Shaped x.version :=
      fun x hx => hl x (List.mem_cons_of_mem w hx)
    rcases List.pairwise_cons.mp hp with ⟨hwrest, hprest⟩
    simp only [insertDesc]
    split
    · rename_i hgt
      refine List.pairwise_cons.mpr ⟨?_, hp⟩
      intro x hx
      rcases List.mem_cons.mp hx with hx | hx
      · rw [hx]; exact compare_pos_swap hv hwS hgt
      · have h1 : x.version.Compare w.version ≤ 0 := hwrest x hx
        have h2 : w.version.Compare v.version ≤ 0 := compare_pos_swap hv hwS hgt
        exact compare_le_trans (hrestS x hx) hwS hv h1 h2
    · rename_i hng
      refine List.pairwise_cons.mpr ⟨?_, ih hrestS hprest⟩
      intro x hx
      rcases insertDesc_mem hx with hx | hx
      · rw [hx]; omega
      · exact hwrest x hx

/-- The materialised collection is sorted descending by semver precedence
whenever its entries are shaped. -/
theorem setVersions_sorted (vs : List DepVersion)
    (hs : ∀ v ∈ vs, Shaped v.version) :
    List.Pairwise (fun a b => b.version.Compare a.version ≤ 0) (SetVersions vs) := by
  induction vs with
  | nil => exact List.Pairwise.nil
  | cons v rest ih =>
    have hrest : ∀ w ∈ rest, Shaped w.version :=
      fun w hw => hs w (List.mem_cons_of_mem v hw)
    have hmem : ∀ w ∈ SetVersions rest, Shaped w.version := by
      intro w hw
      exact hrest w ((setVersions_perm rest).mem_iff.mp hw)
    exact insertDesc_pairwise (hs v (List.mem_cons_self v rest)) hmem (ih hrest)

/-- C7: for a non-empty Versions collection with consistent entries and
pairwise distinct keys, Save followed by Restore (through any iteration order
of the serialised map) yields exactly the same entries — same version
strings, weights and deprecated bits — materialised in descending semver
precedence order. -/
theorem save_restore_roundtrip_c7 (entries : List DepVersion)
    (hne : entries ≠ [])
    (hwf : ∀ e ∈ entries, e.version = NewSemver e.versionStr)
    (hkeys : (entries.map (fun e => e.version.toStr)).Nodup)
    (l : List (List Char × VersionJson)) (hperm : l.Perm (saveVersions entries)) :
    (restoreVersions l).Perm entries ∧
      List.Pairwise (fun a b => b.version.Compare a.version ≤ 0)
        (restoreVersions l) := by
  have hmap : (saveVersions entries).map restoreEntry = entries := by
    unfold saveVersions
    rw [List.map_map]
    have hfun : ∀ e ∈ entries,
        (restoreEntry ∘ fun e =>
          ((e.version.toStr, ⟨e.versionStr, e.weight, e.deprecated⟩) :
            List Char × VersionJson)) e = e := by
      intro e he
      obtain ⟨ver, vstr, w, d⟩ := e
      simp only [Function.comp_apply, restoreEntry]
      have hv := hwf _ he
      simp only at hv
      rw [← hv]
    rw [List.map_congr_left hfun, List.map_id']
  have hperm2 : (l.map restoreEntry).Perm entries := by
    have := hperm.map restoreEntry
    rw [hmap] at this
    exact this
  have hshape : ∀ w ∈ l.map restoreEntry, Shaped w.version := by
    intro w hw
    rcases List.mem_map.mp hw with ⟨kv, _, hkv⟩
    rw [← hkv]
    exact newSemver_shaped kv.2.version
  constructor
  · exact (setVersions_perm (l.map restoreEntry)).trans hperm2
  · exact setVersions_sorted (l.map restoreEntry) hshape

/-- Witness for C7 at a concrete two-entry collection, restoring from the
reversed serialised order. -/
theorem save_restore_roundtrip_c7_witness :
    (restoreVersions ((saveVersions [wEnt1, wEnt2]).reverse)).Perm [wEnt1, wEnt2] ∧
      List.Pairwise (fun a b => b.version.Compare a.version ≤ 0)
        (restoreVersions ((saveVersions [wEnt1, wEnt2]).reverse)) :=
  save_restore_roundtrip_c7 [wEnt1, wEnt2] (by decide) (by decide) (by decide)
    ((saveVersions [wEnt1, wEnt2]).reverse) (List.reverse_perm _)

/-- Overwriting a key keeps the key sequence of the ordered map. -/
theorem setExisting_keys (m : List (String × Jval)) (k : String) (v : Jval) :
    (setExisting m k v).map Prod.fst = m.map Prod.fst := by
  unfold setExisting
  rw [List.map_map]
  apply List.map_congr_left
  intro kv _
  by_cases h : kv.1 = k <;> simp [h]

/-- Overwriting a key acts pointwise on positions. -/
theorem setExisting_get (m : List (String × Jval)) (k : String) (v : Jval)
    (j : Nat) :
    (setExisting m k v).get? j =
      (m.get? j).map (fun kv => if kv.1 = k then (k, v) else kv) := by
  unfold setExisting
  exact List.get?_map _ _ _

/-- Applying changes keeps the key sequence of the bucket. -/
theorem applyChanges_keys (changes : List Change) :
    ∀ bucket : List (String × Jval),
      (applyChanges bucket changes).map Prod.fst = bucket.map Prod.fst := by
  induction changes with
  | nil => intro bucket; rfl
  | cons c rest ih =>
    intro bucket
    simp only [applyChanges, List.foldl_cons]
    by_cases hc : c.haveToUpdate = true
    · rw [if_pos hc]
      have := ih (setExisting bucket c.packageName (Jval.str c.nextVersion))
      simp only [applyChanges] at this
      rw [this, setExisting_keys]
    · rw [if_neg hc]
      have := ih bucket
      simp only [applyChanges] at this
      exact this

/-- An entry whose key is not marked for update keeps its position and
value. -/
theorem applyChanges_get_untouched (changes : List Change) :
    ∀ (bucket : List (String × Jval)) (j : Nat) (kv : String × Jval),
      bucket.get? j = some kv → kv.1 ∉ changedNames changes →
      (applyChanges bucket changes).get? j = some kv := by
  induction changes with
  | nil => intro bucket j kv h _; exact h
  | cons c rest ih =>
    intro bucket j kv h hn
    simp only [applyChanges, List.foldl_cons]
    by_cases hc : c.haveToUpdate = true
    · rw [if_pos hc]
      have hnames : changedNames (c :: rest) = c.packageName :: changedNames rest := by
        simp [changedNames, hc]
      rw [hnames] at hn
      have hne : kv.1 ≠ c.packageName := fun he => hn (he ▸ List.mem_cons_self _ _)
      have hget : (setExisting bucket c.packageName (Jval.str c.nextVersion)).get? j =
          some kv := by
        rw [setExisting_get, h]
        simp [hne]
      have := ih (setExisting bucket c.packageName (Jval.str c.nextVersion)) j kv hget
        (fun hmem => hn (List.mem_cons_of_mem _ hmem))
      simpa [applyChanges] using this
    · rw [if_neg hc]
      have hnames : changedNames (c :: rest) = changedNames rest := by
        simp [changedNames, hc]
      rw [hnames] at hn
      have := ih bucket j kv h hn
      simpa [applyChanges] using this

/-- The name of a change marked for update is a changed name. -/
theorem changedNames_mem {changes : List Change} {ch : Change} (h : ch ∈ changes)
    (hu : ch.haveToUpdate = true) : ch.packageName ∈ changedNames changes := by
  unfold changedNames
  exact List.mem_map_of_mem _ (List.mem_filter.mpr ⟨h, hu⟩)

/-- An entry whose key is marked for update keeps its position with only its
value replaced by the rendered next version (changed names pairwise
distinct). -/
theorem applyChanges_get_updated (changes : List Change) :
    ∀ (bucket : List (String × Jval)) (j : Nat) (kv : String × Jval)
      (ch : Change), bucket.get? j = some kv → ch ∈ changes →
      ch.haveToUpdate = true → kv.1 = ch.packageName →
      (changedNames changes).Nodup →
      (applyChanges bucket changes).get? j =
        some (kv.1, Jval.str ch.nextVersion) := by
  induction changes with
  | nil => intro bucket j kv ch _ hch; cases hch
  | cons c rest ih =>
    intro bucket j kv ch h hch hu hk hnd
    simp only [applyChanges, List.foldl_cons]
    rcases List.mem_cons.mp hch with hceq | hcrest
    · subst hceq
      rw [if_pos hu]
      have hnames : changedNames (ch :: rest) = ch.packageName :: changedNames rest := by
        simp [changedNames, hu]
      rw [hnames] at hnd
      have hnotin : ch.packageName ∉ changedNames rest := (List.nodup_cons.mp hnd).1
      have hget : (setExisting bucket ch.packageName (Jval.str ch.nextVersion)).get? j =
          some (kv.1, Jval.str ch.nextVersion) := by
        rw [setExisting_get, h]
        simp [hk]
      have := applyChanges_get_untouched rest _ j (kv.1, Jval.str ch.nextVersion) hget
        (by simpa [hk] using hnotin)
      simpa [applyChanges] using this
    · by_cases hc : c.haveToUpdate = true
      · rw [if_pos hc]
        have hnames : changedNames (c :: rest) = c.packageName :: changedNames rest := by
          simp [changedNames, hc]
        rw [hnames] at hnd
        have hmem : ch.packageName ∈ changedNames rest := changedNames_mem hcrest hu
        have hne : kv.1 ≠ c.packageName := by
          intro he
          apply (List.nodup_cons.mp hnd).1
          have hcch : c.packageName = ch.packageName := by rw [← he, hk]
          rw [hcch]
          exact hmem
        have hget : (setExisting bucket c.packageName (Jval.str c.nextVersion)).get? j =
            some kv := by
          rw [setExisting_get, h]
          simp [hne]
        have := ih _ j kv ch hget hcrest hu hk (List.nodup_cons.mp hnd).2
        simpa [applyChanges] using this
      · rw [if_neg hc]
        have hnames : changedNames (c :: rest) = changedNames rest := by
          simp [changedNames, hc]
        rw [hnames] at hnd
        have := ih bucket j kv ch h hcrest hu hk hnd
        simpa [applyChanges] using this

/-- One section pass keeps the key sequence. -/
theorem sectionUpdate_keys (sec : String) (c : List Change)
    (d : List (String × Jval)) :
    (sectionUpdate sec c d).map Prod.fst = d.map Prod.fst := by
  unfold sectionUpdate
  rw [List.map_map]
  apply List.map_congr_left
  intro kv _
  obtain ⟨k, v⟩ := kv
  simp only [Function.comp_apply]
  by_cases h : k = sec
  · rw [if_pos h]
    cases v <;> simp
  · rw [if_neg h]

/-- One section pass leaves entries under other keys untouched. -/
theorem sectionUpdate_get_ne {sec : String} (c : List Change)
    {d : List (String × Jval)} {j : Nat} {kv : String × Jval}
    (h : d.get? j = some kv) (hne : kv.1 ≠ sec) :
    (sectionUpdate sec c d).get? j = some kv := by
  unfold sectionUpdate
  rw [List.get?_map, h]
  simp [hne]

/-- One section pass rewrites the section's object in place. -/
theorem sectionUpdate_get_obj {sec : String} (c : List Change)
    {d : List (String × Jval)} {j : Nat} {fields : List (String × Jval)}
    (h : d.get? j = some (sec, Jval.obj fields)) :
    (sectionUpdate sec c d).get? j = some (sec, Jval.obj (applyChanges fields c)) := by
  unfold sectionUpdate
  rw [List.get?_map, h]
  simp

/-- C8: the manifest rewrite only replaces values of package keys marked for
update inside their dependency buckets: the document's key sequence is
preserved, entries outside the three buckets are untouched, a bucket's object
is rewritten in place by the bucket's changes, and inside a bucket the key
sequence is preserved, entries not in the change set are untouched, and an
updated key keeps its position with only its value replaced. -/
theorem updatePackageJSON_frame_c8 (doc : List (String × Jval))
    (p d pe : List Change) :
    ((updatePackageJSON doc p d pe).map Prod.fst = doc.map Prod.fst) ∧
    (∀ j kv, doc.get? j = some kv → kv.1 ∉ bucketNames →
      (updatePackageJSON doc p d pe).get? j = some kv) ∧
    (∀ j fields, doc.get? j = some ("dependencies", Jval.obj fields) →
      (updatePackageJSON doc p d pe).get? j =
        some ("dependencies", Jval.obj (applyChanges fields p))) ∧
    (∀ j fields, doc.get? j = some ("devDependencies", Jval.obj fields) →
      (updatePackageJSON doc p d pe).get? j =
        some ("devDependencies", Jval.obj (applyChanges fields d))) ∧
    (∀ j fields, doc.get? j = some ("peerDependencies", Jval.obj fields) →
      (updatePackageJSON doc p d pe).get? j =
        some ("peerDependencies", Jval.obj (applyChanges fields pe))) ∧
    (∀ (changes : List Change) (bucket : List (String × Jval)),
      (applyChanges bucket changes).map Prod.fst = bucket.map Prod.fst) ∧
    (∀ (changes : List Change) (bucket : List (String × Jval)) j kv,
      bucket.get? j = some kv → kv.1 ∉ changedNames changes →
      (applyChanges bucket changes).get? j = some kv) ∧
    (∀ (changes : List Change) (bucket : List (String × Jval)) j kv ch,
      bucket.get? j = some kv → ch ∈ changes → ch.haveToUpdate = true →
      kv.1 = ch.packageName → (changedNames changes).Nodup →
      (applyChanges bucket changes).get? j = some (kv.1, Jval.str ch.nextVersion)) := by
  have hupd : updatePackageJSON doc p d pe =
      sectionUpdate "peerDependencies" pe
        (sectionUpdate "devDependencies" d (sectionUpdate "dependencies" p doc)) := rfl
  refine ⟨?_, ?_, ?_, ?_, ?_, ?_, ?_, ?_⟩
  · rw [hupd, sectionUpdate_keys, sectionUpdate_keys, sectionUpdate_keys]
  · intro j kv h hn
    simp only [bucketNames, List.mem_cons, List.not_mem_nil, or_false] at hn
    push_neg at hn
    rw [hupd]
    exact sectionUpdate_get_ne pe (sectionUpdate_get_ne d
      (sectionUpdate_get_ne p h hn.1) hn.2.1) hn.2.2
  · intro j fields h
    rw [hupd]
    exact sectionUpdate_get_ne pe (sectionUpdate_get_ne d
      (sectionUpdate_get_obj p h) (by simp)) (by simp)
  · intro j fields h
    rw [hupd]
    exact sectionUpdate_get_ne pe (sectionUpdate_get_obj d
      (sectionUpdate_get_ne p h (by simp))) (by simp)
  · intro j fields h
    rw [hupd]
    exact sectionUpdate_get_obj pe (sectionUpdate_get_ne d
      (sectionUpdate_get_ne p h (by simp)) (by simp))
  · intro changes bucket
    exact applyChanges_keys changes bucket
  · intro changes bucket j kv h hn
    exact applyChanges_get_untouched changes bucket j kv h hn
  · intro changes bucket j kv ch h hch hu hk hnd
    exact applyChanges_get_updated changes bucket j kv ch h hch hu hk hnd

/-- Witness for C8 at a concrete document: the untouched name key and the
untouched react entry keep their positions, and the lodash entry keeps its
position with its value replaced. -/
theorem updatePackageJSON_frame_c8_witness :
    (updatePackageJSON wDoc [wChange] [] []).get? 0 = some ("name", Jval.str "app") ∧
    (applyChanges [("lodash", Jval.str "^1.0.0"), ("react", Jval.str "^17.0.0")]
        [wChange]).get? 1 = some ("react", Jval.str "^17.0.0") ∧
    (applyChanges [("lodash", Jval.str "^1.0.0"), ("react", Jval.str "^17.0.0")]
        [wChange]).get? 0 = some ("lodash", Jval.str "^2.0.0") :=
  ⟨(updatePackageJSON_frame_c8 wDoc [wChange] [] []).2.1 0 ("name", Jval.str "app")
      rfl (by decide),
    (updatePackageJSON_frame_c8 wDoc [wChange] [] []).2.2.2.2.2.2.1 [wChange]
      [("lodash", Jval.str "^1.0.0"), ("react", Jval.str "^17.0.0")] 1
      ("react", Jval.str "^17.0.0") rfl (by decide),
    (updatePackageJSON_frame_c8 wDoc [wChange] [] []).2.2.2.2.2.2.2 [wChange]
      [("lodash", Jval.str "^1.0.0"), ("react", Jval.str "^17.0.0")] 0
      ("lodash", Jval.str "^1.0.0") wChange rfl (List.mem_cons_self _ _) rfl rfl
      (by decide)⟩

end Npu
